import Mathlib

/-!
Verification development for the aitomate repository (cli_agent.py,
mcp_client.py, mcp_server.py).

The Python source is shallowly embedded: pure fragments become Lean
functions, I/O boundaries (the Ollama chat service, the MCP worker
session, the interactive confirmation prompt, subprocess and socket
outcomes) become explicit parameters.  Python's `json.loads` is modelled
as an executable recursive-descent JSON reader over `List Char`, and
`json.dumps` as an executable serializer; numbers keep their source
lexeme (the model does not evaluate floating point).
-/

/-- Parsed JSON values as produced by `json.loads`.  Objects keep their
pairs in source order (Python collapses duplicate keys keeping the last
value; lookups below therefore take the last binding). -/
inductive Json where
  | null : Json
  | bool (b : Bool) : Json
  | num (lex : String) : Json
  | str (s : String) : Json
  | arr (elems : List Json) : Json
  | obj (pairs : List (String × Json)) : Json

/-! ## The brace scanner of `_extract_json_object` (cli_agent.py lines 93-121)

The Python loop keeps `depth`, `in_string` and `escape` variables while
walking the text; it stops at the first `}` outside a string that brings
the depth to zero. -/

/-- State of the scanning loop in `_extract_json_object`: current brace
depth, whether the scanner is inside a quoted string, and whether the
previous character was an unconsumed backslash. -/
structure ScanSt where
  depth : Int
  inStr : Bool
  esc : Bool
deriving DecidableEq, Repr

/-- One step of the scanner either continues in a new state or hits the
closing brace that balances the span (`depth == 0` after decrement). -/
inductive ScanOut where
  | cont (st : ScanSt) : ScanOut
  | hit : ScanOut
deriving DecidableEq, Repr

/-- One iteration of the `for idx in range(start, len(text))` loop body of
`_extract_json_object`. -/
def scanStep (st : ScanSt) (c : Char) : ScanOut :=
  if st.inStr then
    if st.esc then .cont { st with esc := false }
    else if c = '\\' then .cont { st with esc := true }
    else if c = '"' then .cont { st with inStr := false }
    else .cont st
  else if c = '"' then .cont { st with inStr := true }
  else if c = '\x7b' then .cont { st with depth := st.depth + 1 }
  else if c = '\x7d' then
    if st.depth - 1 = 0 then .hit
    else .cont { st with depth := st.depth - 1 }
  else .cont st

/-- Run the scanner over a chunk of characters; `none` when the loop hit a
balancing `}` inside the chunk, otherwise the state after the chunk. -/
def scanChunk (st : ScanSt) : List Char → Option ScanSt
  | [] => some st
  | c :: cs =>
    match scanStep st c with
    | .hit => none
    | .cont st' => scanChunk st' cs

/-- Position (relative to the given list) of the balancing `}` found by
the scanning loop, `none` when the loop runs off the end of the text. -/
def scanEnd (st : ScanSt) : List Char → Option Nat
  | [] => none
  | c :: cs =>
    match scanStep st c with
    | .hit => some 0
    | .cont st' => (scanEnd st' cs).map Nat.succ

/-! ## Model of Python's `json.loads`

`cli_agent.py` parses candidate texts with `json.loads`.  The model below
follows CPython's `json` decoder: optional whitespace, objects, arrays,
strings with backslash escapes (including `\uXXXX`; a lone surrogate
escape degrades to `'\x00'` in this model), numbers matching
`-?(0|[1-9]\d*)(\.\d+)?([eE][+-]?\d+)?` kept as their lexeme, the
constants `true/false/null` and CPython's `NaN`, `Infinity`, `-Infinity`.
Strict mode: raw control characters below 0x20 are rejected inside
strings. -/

/-- Whitespace characters skipped by the CPython json decoder. -/
def jsonWs (c : Char) : Bool :=
  c = ' ' || c = '\t' || c = '\n' || c = '\r'

/-- Skip leading json whitespace. -/
def skipWs : List Char → List Char
  | [] => []
  | c :: cs => if jsonWs c then skipWs cs else c :: cs

/-- ASCII decimal digit test (by code point, to ease arithmetic proofs). -/
def isDigitC (c : Char) : Bool := 48 ≤ c.toNat && c.toNat ≤ 57

/-- ASCII hexadecimal digit test. -/
def isHexC (c : Char) : Bool :=
  (48 ≤ c.toNat && c.toNat ≤ 57) || (97 ≤ c.toNat && c.toNat ≤ 102) ||
    (65 ≤ c.toNat && c.toNat ≤ 70)

/-- Numeric value of an ASCII hex digit. -/
def hexVal (c : Char) : Nat :=
  if 48 ≤ c.toNat && c.toNat ≤ 57 then c.toNat - 48
  else if 97 ≤ c.toNat && c.toNat ≤ 102 then c.toNat - 87
  else c.toNat - 55

/-- Decode the characters following a backslash inside a json string:
either a simple escape or `uXXXX`.  Returns the decoded character and the
remaining input. -/
def decodeEscape : List Char → Option (Char × List Char)
  | [] => none
  | e :: cs =>
    if e = '"' then some ('"', cs)
    else if e = '\\' then some ('\\', cs)
    else if e = '/' then some ('/', cs)
    else if e = 'b' then some ('\x08', cs)
    else if e = 'f' then some ('\x0c', cs)
    else if e = 'n' then some ('\n', cs)
    else if e = 'r' then some ('\r', cs)
    else if e = 't' then some ('\t', cs)
    else if e = 'u' then
      match cs with
      | h1 :: h2 :: h3 :: h4 :: cs' =>
        if isHexC h1 && isHexC h2 && isHexC h3 && isHexC h4 then
          some (Char.ofNat
            (((hexVal h1 * 16 + hexVal h2) * 16 + hexVal h3) * 16 + hexVal h4), cs')
        else none
      | _ => none
    else none

/-- Body of a json string after the opening quote: decoded characters and
the input remaining after the closing quote.  The fuel bounds recursion;
`json_loads` supplies more fuel than the input length. -/
def parseStringBody : Nat → List Char → Option (List Char × List Char)
  | 0, _ => none
  | _ + 1, [] => none
  | f + 1, c :: cs =>
    if c = '"' then some ([], cs)
    else if c = '\\' then
      match decodeEscape cs with
      | none => none
      | some (d, rest) =>
        match parseStringBody f rest with
        | none => none
        | some (s, r) => some (d :: s, r)
    else if c.toNat < 32 then none
    else
      match parseStringBody f cs with
      | none => none
      | some (s, r) => some (c :: s, r)

/-- Integer part of a number token: `0` alone or a nonzero digit
followed by more digits (the `(0|[1-9]\d*)` group of CPython's
`NUMBER_RE`). -/
def numInt : List Char → Option (List Char × List Char)
  | [] => none
  | c :: rest =>
    if isDigitC c then
      if c = '0' then some ([c], rest)
      else some (c :: rest.takeWhile isDigitC, rest.dropWhile isDigitC)
    else none

/-- Optional fraction part `\.\d+` (all-or-nothing, like the regex). -/
def numFrac (cs : List Char) : List Char × List Char :=
  match cs with
  | c :: r =>
    if c = '.' then
      if (r.takeWhile isDigitC) = [] then ([], cs)
      else ('.' :: r.takeWhile isDigitC, r.dropWhile isDigitC)
    else ([], cs)
  | [] => ([], cs)

/-- Optional exponent part `[eE][+-]?\d+` (all-or-nothing). -/
def numExp (cs : List Char) : List Char × List Char :=
  match cs with
  | e :: r =>
    if e = 'e' || e = 'E' then
      let (sgn, r1) :=
        match r with
        | s :: r' => if s = '+' || s = '-' then ([s], r') else (([] : List Char), r)
        | [] => (([] : List Char), r)
      if (r1.takeWhile isDigitC) = [] then ([], cs)
      else (e :: (sgn ++ r1.takeWhile isDigitC), r1.dropWhile isDigitC)
    else ([], cs)
  | [] => ([], cs)

/-- Number token per CPython's `NUMBER_RE`; returns the lexeme and rest. -/
def parseNumber (cs : List Char) : Option (Json × List Char) :=
  let (neg, cs1) :=
    match cs with
    | c :: r => if c = '-' then (['-'], r) else (([] : List Char), cs)
    | [] => (([] : List Char), cs)
  match numInt cs1 with
  | none => none
  | some (ds, cs2) =>
    some (.num (String.mk (neg ++ ds ++ (numFrac cs2).1 ++ (numExp (numFrac cs2).2).1)),
      (numExp (numFrac cs2).2).2)

/-- Strip a literal token from the front of the input. -/
def stripLit : List Char → List Char → Option (List Char)
  | [], cs => some cs
  | _ :: _, [] => none
  | l :: ls, c :: cs => if c = l then stripLit ls cs else none

/-- Constants and numbers at value position (CPython scanner order:
literals `true/false/null`, then number, then `NaN`, `Infinity`, `-Infinity`;
the token sets cannot overlap so trying the constants first is
equivalent). -/
def parseAtom (cs : List Char) : Option (Json × List Char) :=
  match stripLit ['t', 'r', 'u', 'e'] cs with
  | some r => some (.bool true, r)
  | none =>
  match stripLit ['f', 'a', 'l', 's', 'e'] cs with
  | some r => some (.bool false, r)
  | none =>
  match stripLit ['n', 'u', 'l', 'l'] cs with
  | some r => some (.null, r)
  | none =>
  match stripLit ['N', 'a', 'N'] cs with
  | some r => some (.num "NaN", r)
  | none =>
  match stripLit ['I', 'n', 'f', 'i', 'n', 'i', 't', 'y'] cs with
  | some r => some (.num "Infinity", r)
  | none =>
  match stripLit ['-', 'I', 'n', 'f', 'i', 'n', 'i', 't', 'y'] cs with
  | some r => some (.num "-Infinity", r)
  | none => parseNumber cs

mutual

/-- A json value (leading whitespace allowed) and the remaining input. -/
def parseValue : Nat → List Char → Option (Json × List Char)
  | 0, _ => none
  | f + 1, cs =>
    match skipWs cs with
    | [] => none
    | c :: cs' =>
      if c = '\x7b' then
        match skipWs cs' with
        | c2 :: r =>
          if c2 = '\x7d' then some (.obj [], r)
          else (parseMembers f (c2 :: r)).map (fun p => (.obj p.1, p.2))
        | [] => none
      else if c = '[' then
        match skipWs cs' with
        | c2 :: r =>
          if c2 = ']' then some (.arr [], r)
          else (parseElems f (c2 :: r)).map (fun p => (.arr p.1, p.2))
        | [] => none
      else if c = '"' then
        (parseStringBody (f + 1) cs').map (fun p => (.str (String.mk p.1), p.2))
      else parseAtom (c :: cs')

/-- Members of a json object, starting at the first key (whitespace
already skipped) and consuming the closing brace. -/
def parseMembers : Nat → List Char → Option (List (String × Json) × List Char)
  | 0, _ => none
  | f + 1, cs =>
    match cs with
    | c :: cs' =>
      if c = '"' then
        match parseStringBody (f + 1) cs' with
        | none => none
        | some (key, cs2) =>
          match skipWs cs2 with
          | c3 :: cs3 =>
            if c3 = ':' then
              match parseValue f cs3 with
              | none => none
              | some (v, cs4) =>
                match skipWs cs4 with
                | c5 :: cs5 =>
                  if c5 = ',' then
                    match parseMembers f (skipWs cs5) with
                    | none => none
                    | some (ps, rest) => some ((String.mk key, v) :: ps, rest)
                  else if c5 = '\x7d' then some ([(String.mk key, v)], cs5)
                  else none
                | [] => none
            else none
          | [] => none
      else none
    | [] => none

/-- Elements of a json array, consuming the closing bracket. -/
def parseElems : Nat → List Char → Option (List Json × List Char)
  | 0, _ => none
  | f + 1, cs =>
    match parseValue f cs with
    | none => none
    | some (v, cs1) =>
      match skipWs cs1 with
      | c2 :: cs2 =>
        if c2 = ',' then (parseElems f cs2).map (fun p => (v :: p.1, p.2))
        else if c2 = ']' then some ([v], cs2)
        else none
      | [] => none

end

/-- Model of `json.loads`: parse one value and require only whitespace
after it.  The fuel `2 * length + 8` dominates the decoder's recursion
(every two recursive calls consume at least one character). -/
def json_loads (cs : List Char) : Option Json :=
  match parseValue (2 * cs.length + 8) cs with
  | none => none
  | some (v, rest) => if skipWs rest = [] then some v else none

/-! ## `_extract_json_object` (cli_agent.py lines 89-123) -/

/-- Iteration of `text.find("\x7b", start)`; the fuel only bounds the
walked positions and `text.length + 1` always suffices. -/
def findBraceAux (text : List Char) : Nat → Nat → Option Nat
  | 0, _ => none
  | fuel + 1, start =>
    if h : start < text.length then
      if text.get ⟨start, h⟩ = '\x7b' then some start
      else findBraceAux text fuel (start + 1)
    else none

/-- Index of the first `'\x7b'` at or after `start`, i.e. Python's
`text.find("\x7b", start)` (with `none` for `-1`). -/
def findBrace (text : List Char) (start : Nat) : Option Nat :=
  findBraceAux text (text.length + 1) start

/-- The loop of `_extract_json_object` from a given candidate start: scan
for a balanced span, try `json.loads` on it, and on failure (or no
balanced span) move to the next `{`.  The fuel only bounds the number of
loop iterations; each iteration moves to a strictly later `{`, so
`text.length + 1` iterations always suffice. -/
def extractLoop (text : List Char) : Nat → Nat → Option Json
  | 0, _ => none
  | fuel + 1, start =>
    match scanEnd ⟨0, false, false⟩ (text.drop start) with
    | some off =>
      match json_loads ((text.drop start).take (off + 1)) with
      | some v => some v
      | none =>
        match findBrace text (start + 1) with
        | some s2 => extractLoop text fuel s2
        | none => none
    | none =>
      match findBrace text (start + 1) with
      | some s2 => extractLoop text fuel s2
      | none => none

/-- Model of `_extract_json_object`: find the first json object embedded
in arbitrary text, or `none` (Python `None`). -/
def extract_json_object (text : List Char) : Option Json :=
  match findBrace text 0 with
  | some s => extractLoop text (text.length + 1) s
  | none => none

/-! ## Python string helpers used by the agent and the worker -/

/-- Whitespace removed by Python's `str.strip()` (the ASCII part; the
agent only strips confirmation answers, hosts and commands). -/
def pyWs (c : Char) : Bool :=
  c = ' ' || c = '\t' || c = '\n' || c = '\r' || c = '\x0b' || c = '\x0c'

/-- Model of `str.strip()`. -/
def pyStrip (s : String) : String :=
  String.mk (((s.data.dropWhile pyWs).reverse.dropWhile pyWs).reverse)

/-- Model of `str.lower()` (ASCII case folding). -/
def pyLower (s : String) : String :=
  String.mk (s.data.map Char.toLower)

/-- Python truthiness of a value produced by `json.loads` (used by the
`or {}` default in `process_assistant`).  A numeric lexeme is falsy
exactly when it denotes zero: its mantissa (the part before any
exponent marker) has digits and all of them are `0` — so `0e5` and
`-0.0e3` are falsy while `NaN` and `Infinity` are truthy. -/
def pyTruthy : Json → Bool
  | .null => false
  | .bool b => b
  | .str s => !s.isEmpty
  | .num lex =>
    let mantissa := lex.data.takeWhile (fun c => !(c = 'e' || c = 'E'))
    !(mantissa.any isDigitC && mantissa.all (fun c => !isDigitC c || c = '0'))
  | .arr xs => !xs.isEmpty
  | .obj ps => !ps.isEmpty

/-- Last binding of a key in an object's pair list (Python dicts keep the
last value for a duplicated json key). -/
def lookupLast : List (String × Json) → String → Option Json
  | [], _ => none
  | (k', v) :: rest, k =>
    match lookupLast rest k with
    | some r => some r
    | none => if k' = k then some v else none

/-- Model of `data[k]` / `k in data` lookups on a parsed json value;
`none` both for a missing key and for a non-dict value. -/
def jsonGet? (d : Json) (k : String) : Option Json :=
  match d with
  | .obj ps => lookupLast ps k
  | _ => none

/-- Whether the parsed value is a Python dict (`isinstance(data, dict)`). -/
def jsonIsDict : Json → Bool
  | .obj _ => true
  | _ => false

mutual

/-- Python `repr` of a value produced by `json.loads`, as used when a
non-string value is interpolated into an f-string (single-quoted strings
without escaping refinement, `True`, `False`, `None`; numeric lexemes are
kept verbatim). -/
def pyRepr : Json → String
  | .null => "None"
  | .bool true => "True"
  | .bool false => "False"
  | .num lex => lex
  | .str s => "'" ++ s ++ "'"
  | .arr xs => "[" ++ pyReprList xs ++ "]"
  | .obj ps => "\x7b" ++ pyReprPairs ps ++ "\x7d"

/-- Comma-separated `repr` of list elements. -/
def pyReprList : List Json → String
  | [] => ""
  | [x] => pyRepr x
  | x :: xs => pyRepr x ++ ", " ++ pyReprList xs

/-- Comma-separated `repr` of dict items. -/
def pyReprPairs : List (String × Json) → String
  | [] => ""
  | [(k, v)] => "'" ++ k ++ "': " ++ pyRepr v
  | (k, v) :: ps => "'" ++ k ++ "': " ++ pyRepr v ++ ", " ++ pyReprPairs ps

end

/-- Python `str()` of a value interpolated into an f-string: strings are
taken verbatim, other values via `repr` (which coincides with `str` for
the container/constant shapes appearing here). -/
def pyStr : Json → String
  | .str s => s
  | v => pyRepr v

/-- Hex digit for serializer control-character escapes. -/
def hexDigitChar (n : Nat) : Char :=
  if n < 10 then Char.ofNat (48 + n) else Char.ofNat (87 + n)

/-- Escape one character the way `json.dumps` (ensure_ascii=False) does:
quote and backslash are escaped, common control characters use their
short escapes, other control characters use `\u00XX`, and everything
else is emitted verbatim. -/
def dumpsEscape (c : Char) : List Char :=
  if c = '"' then ['\\', '"']
  else if c = '\\' then ['\\', '\\']
  else if c = '\n' then ['\\', 'n']
  else if c = '\r' then ['\\', 'r']
  else if c = '\t' then ['\\', 't']
  else if c = '\x08' then ['\\', 'b']
  else if c = '\x0c' then ['\\', 'f']
  else if c.toNat < 32 then
    ['\\', 'u', '0', '0', hexDigitChar (c.toNat / 16), hexDigitChar (c.toNat % 16)]
  else [c]

/-- Serialized json string literal. -/
def dumpsStr (s : String) : String :=
  "\"" ++ String.mk (s.data.flatMap dumpsEscape) ++ "\""

mutual

/-- Model of `json.dumps(v, ensure_ascii=False)` with the default
separators `", "` and `": "`.  Numeric lexemes are emitted verbatim (the
model does not re-render floats). -/
def json_dumps : Json → String
  | .null => "null"
  | .bool true => "true"
  | .bool false => "false"
  | .num lex => lex
  | .str s => dumpsStr s
  | .arr xs => "[" ++ json_dumpsList xs ++ "]"
  | .obj ps => "\x7b" ++ json_dumpsPairs ps ++ "\x7d"

/-- Comma-separated serialization of array elements. -/
def json_dumpsList : List Json → String
  | [] => ""
  | [x] => json_dumps x
  | x :: xs => json_dumps x ++ ", " ++ json_dumpsList xs

/-- Comma-separated serialization of object items. -/
def json_dumpsPairs : List (String × Json) → String
  | [] => ""
  | [(k, v)] => dumpsStr k ++ ": " ++ json_dumps v
  | (k, v) :: ps => dumpsStr k ++ ": " ++ json_dumps v ++ ", " ++ json_dumpsPairs ps

end

/-! ## Dispatch and the orchestration loop (cli_agent.py lines 160-301)

The chat service, the confirmation prompt and the capability functions
are I/O; one loop round is therefore driven by a `Round` record carrying
the model's raw reply, the user's confirmation input lines, and the
behavior of the invoked capability (`func(**args)` returning a value or
raising). -/

/-- Keys of the static `TOOL_MAP` table. -/
def TOOL_NAMES : List String :=
  ["read_file", "append_log", "run_command", "system_info", "ping_host",
   "scan_port", "ssh_command"]

/-- `TOOL_MAP.get(tool_name) is not None`: only string names can hit the
table. -/
def knownTool (t : Json) : Bool :=
  match t with
  | .str s => TOOL_NAMES.contains s
  | _ => false

/-- Outcome of `func(**args)`: the returned value, or the message of a
raised exception (`str(exc)`). -/
inductive InvokeOutcome where
  | ok (v : Json) : InvokeOutcome
  | raises (msg : String) : InvokeOutcome

/-- One transcript message: a `{"role": ..., "content": ...}` dict.  The
content is a `Json` value because the final-answer branch stores the raw
`data["final"]` value, which need not be a string. -/
structure Msg where
  role : String
  content : Json

/-- Inputs to one round of the `process_assistant` loop. -/
structure Round where
  reply : String
  answers : List String
  invoke : String → Json → InvokeOutcome

/-- Result of one round: the loop breaks (`done`), continues (`more`),
blocks inside `_confirm_tool` (`stuck` — no valid answer line), or dies
on an uncaught exception (`crash` — `TOOL_MAP.get` on an unhashable
tool name, or the `_confirm_tool` preview synthesis), with the
transcript state at the point of death. -/
inductive StepRes where
  | done (msgs : List Msg) : StepRes
  | more (msgs : List Msg) : StepRes
  | stuck (msgs : List Msg) : StepRes
  | crash (msgs : List Msg) : StepRes

/-- Decision loop of `_confirm_tool` (cli_agent.py lines 192-198) over
the available input lines: `y`/`yes` accept, `n`/`no`/empty decline,
anything else re-prompts. -/
def confirm_tool_decision : List String → Option Bool
  | [] => none
  | a :: rest =>
    let choice := pyLower (pyStrip a)
    if choice = "y" || choice = "yes" then some true
    else if choice = "n" || choice = "no" || choice = "" then some false
    else confirm_tool_decision rest

/-- The `args = data.get("args", {}) or {}` computation: a missing key or
a falsy value defaults to the empty dict, a truthy value (mapping or
not) is kept. -/
def dispatchArgs (d : Json) : Json :=
  let raw := (jsonGet? d "args").getD (.obj [])
  if pyTruthy raw then raw else .obj []

/-- Whether a parsed-json value is hashable as a Python dict key:
`TOOL_MAP.get(tool_name)` raises an uncaught `TypeError` for a list or
dict tool name. -/
def jsonHashable : Json → Bool
  | .arr _ => false
  | .obj _ => false
  | _ => true

/-- Whether `int(x)` raises for a parsed-json value `x`: `None`, lists
and dicts are not convertible (`TypeError`), `NaN` and the infinities
cannot convert (`ValueError`, `OverflowError`), a string must be an
optionally signed ASCII digit run after stripping (`ValueError`
otherwise; digit-grouping underscores and non-ASCII digits, which
CPython also accepts, are not modelled).  Booleans and finite numbers
convert without raising. -/
def pyIntRaises : Json → Bool
  | .null => true
  | .bool _ => false
  | .arr _ => true
  | .obj _ => true
  | .num lex => lex = "NaN" || lex = "Infinity" || lex = "-Infinity"
  | .str s =>
    let t := (pyStrip s).data
    let t2 :=
      match t with
      | c :: r => if c = '+' || c = '-' then r else t
      | [] => t
    !(!t2.isEmpty && t2.all isDigitC)

/-- Whether `int(args.get(k, default) or default)` raises: only a
present truthy non-convertible value reaches `int` (a missing or falsy
value is replaced by the integer default, which converts). -/
def intArgRaises (args : Json) (k : String) : Bool :=
  match jsonGet? args k with
  | none => false
  | some v => pyTruthy v && pyIntRaises v

/-- Whether the preview synthesis of `_confirm_tool` (cli_agent.py lines
160-187) raises an uncaught exception before any prompt: `args.get` on a
non-mapping (`AttributeError`) for the three preview tools, and the
`int(...)` coercions of `count`, `timeout` and `port` once the guarding
host/command strings are non-empty. -/
def confirm_preview_raises (tool_name : String) (args : Json) : Bool :=
  if tool_name = "run_command" then !jsonIsDict args
  else if tool_name = "ping_host" then
    if !jsonIsDict args then true
    else
      let host := pyStrip (pyStr ((jsonGet? args "host").getD (.str "")))
      if host = "" then false
      else intArgRaises args "count" || intArgRaises args "timeout"
  else if tool_name = "ssh_command" then
    if !jsonIsDict args then true
    else
      let host := pyStrip (pyStr ((jsonGet? args "host").getD (.str "")))
      let command := pyStrip (pyStr ((jsonGet? args "command").getD (.str "")))
      if host = "" || command = "" then false
      else intArgRaises args "port"
  else false

/-- The `f"Unknown tool '{tool_name}'."` notice. -/
def unknownToolMsg (t : Json) : String :=
  "Unknown tool '" ++ pyStr t ++ "'."

/-- The `f"User declined to run tool {tool_name}."` notice. -/
def declinedMsg (t : Json) : String :=
  "User declined to run tool " ++ pyStr t ++ "."

/-- The dispatch-synthesized failure value
`{"status": "error", "error": str(exc)}`. -/
def errorResult (msg : String) : Json :=
  .obj [("status", .str "error"), ("error", .str msg)]

/-- The serialized tool-result transcript line
`f"Tool {tool_name} result: {json.dumps(result, ensure_ascii=False)}"`. -/
def toolResultText (t : Json) (result : Json) : String :=
  "Tool " ++ pyStr t ++ " result: " ++ json_dumps result

/-- Branching of `process_assistant` on the parsed value `data`;
`logged` records whether the assistant reply was already appended during
the extraction fallback.  `TOOL_MAP.get(tool_name)` runs before the
assistant append (source line 225 before 226-227), so an unhashable
tool name crashes with the transcript still at `msgs0`; the
`_confirm_tool` preview runs after the unknown-tool check and before
the decision prompt. -/
def handleData (rd : Round) (msgs0 : List Msg) (d : Json) (logged : Bool) : StepRes :=
  if jsonIsDict d && (jsonGet? d "tool").isSome then
    let toolName := (jsonGet? d "tool").getD .null
    let args := dispatchArgs d
    if !jsonHashable toolName then .crash msgs0
    else
      let msgs1 := if logged then msgs0 else msgs0 ++ [⟨"assistant", .str rd.reply⟩]
      if !knownTool toolName then
        .done (msgs1 ++ [⟨"user", .str (unknownToolMsg toolName)⟩])
      else
        let toolStr := match toolName with | .str s => s | _ => ""
        if confirm_preview_raises toolStr args then .crash msgs1
        else
          match confirm_tool_decision rd.answers with
          | none => .stuck msgs1
          | some false => .done (msgs1 ++ [⟨"user", .str (declinedMsg toolName)⟩])
          | some true =>
            let result :=
              match rd.invoke toolStr args with
              | .ok v => v
              | .raises m => errorResult m
            .more (msgs1 ++ [⟨"user", .str (toolResultText toolName result)⟩])
  else if jsonIsDict d && (jsonGet? d "final").isSome then
    .done (msgs0 ++ [⟨"assistant", (jsonGet? d "final").getD .null⟩])
  else
    .done (msgs0 ++ [⟨"assistant", .str rd.reply⟩])

/-- One iteration of the `while True` loop of `process_assistant`: parse
the reply (whole text, then embedded object), then branch. -/
def step (rd : Round) (msgs : List Msg) : StepRes :=
  match json_loads rd.reply.data with
  | some d => handleData rd msgs d false
  | none =>
    match extract_json_object rd.reply.data with
    | none => .done (msgs ++ [⟨"assistant", .str rd.reply⟩])
    | some d => handleData rd (msgs ++ [⟨"assistant", .str rd.reply⟩]) d true

/-- The full `process_assistant` loop over a script of rounds; returns
the transcript when the loop breaks (or the script is exhausted while
the loop would request the model again). -/
def process_assistant : List Round → List Msg → List Msg
  | [], msgs => msgs
  | rd :: rest, msgs =>
    match step rd msgs with
    | .done m => m
    | .stuck m => m
    | .crash m => m
    | .more m => process_assistant rest m

/-! ## RPC bridge: `_normalize_result` (mcp_client.py lines 32-60)

`CallToolResult` and the content blocks are objects of the external mcp
library; their pydantic serializations (`model_dump()`) are carried as
data on the model. -/

/-- An embedded resource inside a `resource` content block: its optional
inline `text` and its `model_dump()` serialization. -/
structure McpResource where
  text : Option Json
  dump : Json

/-- One content block of a worker reply: a `text` block, a `resource`
block (whose `resource` attribute may be absent), or a block of any
other type, reduced to its `model_dump()`. -/
inductive ContentBlock where
  | text (s : String) : ContentBlock
  | resource (blockDump : Json) (res : Option McpResource) : ContentBlock
  | other (blockDump : Json) : ContentBlock

/-- The worker reply as received by the bridge: error flag, optional
pre-structured payload, content blocks, and the reply's own
`model_dump()` rendering used in the failure message. -/
structure CallToolResult where
  isError : Bool
  structuredContent : Option Json
  content : List ContentBlock
  dumpRepr : String

/-- Reduction of one content block (the loop body of
`_normalize_result`). -/
def reduceBlock : ContentBlock → Json
  | .text s => .str s
  | .resource blockDump none => blockDump
  | .resource _ (some res) =>
    match res.text with
    | some t => t
    | none => res.dump
  | .other blockDump => blockDump

/-- Model of `_normalize_result`: raise (`Except.error` carrying the
`RuntimeError` message) on an explicit error flag, return a
pre-structured payload verbatim, otherwise reduce the blocks and
collapse by arity (`None` for zero blocks, the single value for one,
the list for several). -/
def normalize_result (r : CallToolResult) : Except String Json :=
  if r.isError then
    .error ("Tool call failed: " ++ r.dumpRepr)
  else
    match r.structuredContent with
    | some v => .ok v
    | none =>
      let blocks := r.content.map reduceBlock
      match blocks with
      | [] => .ok .null
      | [b] => .ok b
      | bs => .ok (.arr bs)

/-! ## RPC bridge: client-side `run_command` (mcp_client.py lines 75-78)

`_call_tool` spawns a worker session; it is I/O and appears as the
`callTool` parameter.  The timeout guard runs before it. -/

namespace McpClient

/-- Model of `mcp_client.run_command`: reject a non-positive timeout
before any session work, otherwise forward the call. -/
def run_command (callTool : String → List (String × Json) → InvokeOutcome)
    (command : String) (timeout : Int) : InvokeOutcome :=
  if timeout ≤ 0 then .raises "timeout must be positive"
  else callTool "run_command" [("command", .str command), ("timeout", .num (toString timeout))]

end McpClient

/-! ## Capability worker (mcp_server.py)

Worker results are Python dicts; `Py` is the value universe needed for
them.  Subprocess, socket and platform outcomes are parameters. -/

/-- Python values appearing in worker results.  `tup` models tuples
(`os.getloadavg()`), `ext` stands for externally produced values the
model does not compute with (measured floats). -/
inductive Py where
  | none : Py
  | bool (b : Bool) : Py
  | int (n : Int) : Py
  | str (s : String) : Py
  | ext (tag : String) : Py
  | tup (xs : List Py) : Py
  | list (xs : List Py) : Py
  | dict (xs : List (String × Py)) : Py

/-- First binding of a key in a worker-result dict (keys are unique in
all dicts built by the worker). -/
def pyGet : Py → String → Option Py
  | .dict xs, k => (xs.find? (fun p => p.1 == k)).map (fun p => p.2)
  | _, _ => Option.none

/-- Key-presence test on a worker-result dict. -/
def pyHasKey (v : Py) (k : String) : Bool :=
  (pyGet v k).isSome

/-- In-place `info[k] = v` update of a dict with unique keys. -/
def pySet : List (String × Py) → String → Py → List (String × Py)
  | [], _, _ => []
  | (k', v') :: xs, k, v =>
    if k' = k then (k', v) :: xs else (k', v') :: pySet xs k v

/-- Whether a character survives `shlex.quote` without quoting (CPython:
ASCII alphanumerics, underscore, and the punctuation `@ % + = : , . /`
and dash, under `re.ASCII`). -/
def shlexSafe (c : Char) : Bool :=
  (48 ≤ c.toNat && c.toNat ≤ 57) || (65 ≤ c.toNat && c.toNat ≤ 90) ||
  (97 ≤ c.toNat && c.toNat ≤ 122) || c = '_' || c = '@' || c = '%' ||
  c = '+' || c = '=' || c = ':' || c = ',' || c = '.' || c = '/' || c = '-'

/-- Model of `shlex.quote`. -/
def shlex_quote (s : String) : String :=
  if s = "" then "''"
  else if s.data.all shlexSafe then s
  else "'" ++ s.replace "'" "'\"'\"'" ++ "'"

/-- Outcome of a `subprocess.run` call: a completed process, a
`TimeoutExpired`, or another exception with its `str()`. -/
inductive RunOutcome where
  | completed (returncode : Int) (stdout : String) (stderr : String) : RunOutcome
  | timeout : RunOutcome
  | exc (msg : String) : RunOutcome

namespace McpServer

/-- Model of `_proc_result` (mcp_server.py lines 17-25): status from the
return code, stripped stdout and stderr.  Note that a nonzero return code
yields `status = "error"` without any `error` message field. -/
def proc_result (returncode : Int) (stdout stderr : String) : List (String × Py) :=
  [("status", .str (if returncode = 0 then "ok" else "error")),
   ("returncode", .int returncode),
   ("stdout", .str (pyStrip stdout)),
   ("stderr", .str (pyStrip stderr))]

/-- Outcome of `open(path)` for `read_file`. -/
inductive FileReadOutcome where
  | ok (content : String) : FileReadOutcome
  | notFound : FileReadOutcome
  | exc (msg : String) : FileReadOutcome

/-- Model of `read_file` (mcp_server.py lines 28-37).  No `status` field
is ever produced. -/
def read_file : FileReadOutcome → Py
  | .ok content => .dict [("content", .str content)]
  | .notFound => .dict [("error", .str "file not found"), ("content", .str "")]
  | .exc m => .dict [("error", .str m), ("content", .str "")]

/-- Outcome of the append-and-write for `append_log`. -/
inductive WriteOutcome where
  | ok : WriteOutcome
  | exc (msg : String) : WriteOutcome

/-- Model of `append_log` (mcp_server.py lines 40-48). -/
def append_log : WriteOutcome → Py
  | .ok => .dict [("status", .str "ok")]
  | .exc m => .dict [("status", .str "error"), ("error", .str m)]

/-- Model of `run_command` (mcp_server.py lines 51-71). -/
def run_command (command : String) (timeout : Int) (out : RunOutcome) : Py :=
  if pyStrip command = "" then
    .dict [("status", .str "error"), ("error", .str "command cannot be empty")]
  else
    match out with
    | .completed rc so se => .dict (proc_result rc so se ++ [("command", .str command)])
    | .timeout =>
      .dict [("status", .str "error"),
             ("error", .str ("command timed out after " ++ toString timeout ++ "s"))]
    | .exc m => .dict [("status", .str "error"), ("error", .str m)]

/-- Platform facts feeding `system_info`: the `platform`/`os` module
values, whether `os.getloadavg` exists and its outcome (`none` models an
`OSError`), and the `/proc/uptime` read outcome (`none` models any
exception, e.g. the file being absent). -/
structure SysEnv where
  pf : String
  sys : String
  rel : String
  pyv : String
  arch : String
  cpu : Py
  hasGetloadavg : Bool
  loadavg : Option Py
  uptime : Option Py

/-- Model of `system_info` (mcp_server.py lines 74-102): the dict always
carries every key; unsupported `load_avg` and `uptime_seconds` keep the
initial `None` value.  The function is total: every exception of the
probes is absorbed. -/
def system_info (e : SysEnv) : Py :=
  let base : List (String × Py) :=
    [("platform", .str e.pf), ("system", .str e.sys), ("release", .str e.rel),
     ("python", .str e.pyv), ("architecture", .str e.arch), ("cpu_count", e.cpu),
     ("load_avg", .none), ("uptime_seconds", .none)]
  let info :=
    if e.hasGetloadavg then
      match e.loadavg with
      | some v => pySet base "load_avg" v
      | Option.none => base
    else base
  let info :=
    match e.uptime with
    | some v => pySet info "uptime_seconds" v
    | Option.none => info
  .dict info

/-- Model of `ping_host` (mcp_server.py lines 105-140).  `pingBin` is the
`shutil.which("ping")` outcome. -/
def ping_host (host : String) (count timeout : Int) (pingBin : Option String)
    (out : RunOutcome) : Py :=
  if pyStrip host = "" then
    .dict [("status", .str "error"), ("error", .str "host is required")]
  else
    match pingBin with
    | Option.none => .dict [("status", .str "error"), ("error", .str "ping binary not available")]
    | some ping_bin =>
      let count := max 1 (min count 10)
      let timeout := max 1 timeout
      let command := [ping_bin, "-c", toString count, "-W", toString timeout, host]
      match out with
      | .completed rc so se =>
        .dict (proc_result rc so se ++
          [("command", .str (String.intercalate " " (command.map shlex_quote)))])
      | .timeout => .dict [("status", .str "error"), ("error", .str "ping operation timed out")]
      | .exc m => .dict [("status", .str "error"), ("error", .str m)]

/-- Outcome of the TCP connect attempt in `scan_port`: connected, a
timeout or connection refusal, or another exception. -/
inductive ConnectOutcome where
  | connected : ConnectOutcome
  | timeoutOrRefused : ConnectOutcome
  | exc (msg : String) : ConnectOutcome

/-- Model of `scan_port` (mcp_server.py lines 143-164).  `elapsed` is the
measured rounded latency (a float, abstract here). -/
def scan_port (host : String) (port : Int) (out : ConnectOutcome) (elapsed : Py) : Py :=
  if pyStrip host = "" then
    .dict [("status", .str "error"), ("error", .str "host is required")]
  else if !(0 < port && port < 65536) then
    .dict [("status", .str "error"), ("error", .str "port must be between 1 and 65535")]
  else
    match out with
    | .connected =>
      .dict [("status", .str "ok"), ("host", .str host), ("port", .int port),
             ("open", .bool true), ("latency", elapsed)]
    | .timeoutOrRefused =>
      .dict [("status", .str "ok"), ("host", .str host), ("port", .int port),
             ("open", .bool false)]
    | .exc m => .dict [("status", .str "error"), ("error", .str m)]

/-- Model of `ssh_command` (mcp_server.py lines 167-213).  `sshBin` is
the `shutil.which("ssh")` outcome. -/
def ssh_command (host command : String) (user : Option String) (port : Int)
    (key_path : Option String) (timeout : Int) (sshBin : Option String)
    (out : RunOutcome) : Py :=
  if pyStrip host = "" then
    .dict [("status", .str "error"), ("error", .str "host is required")]
  else if pyStrip command = "" then
    .dict [("status", .str "error"), ("error", .str "command is required")]
  else
    match sshBin with
    | Option.none => .dict [("status", .str "error"), ("error", .str "ssh binary not available")]
    | some ssh_bin =>
      let target :=
        match user with
        | some u => if u ≠ "" then u ++ "@" ++ host else host
        | Option.none => host
      let ssh_cmd := [ssh_bin, "-p", toString port, "-o", "BatchMode=yes"] ++
        (match key_path with
         | some kp => if kp ≠ "" then ["-i", kp] else []
         | Option.none => []) ++ [target, command]
      match out with
      | .completed rc so se =>
        .dict (proc_result rc so se ++
          [("command", .str (String.intercalate " " (ssh_cmd.map shlex_quote)))])
      | .timeout =>
        .dict [("status", .str "error"),
               ("error", .str ("ssh command timed out after " ++ toString timeout ++ "s"))]
      | .exc m => .dict [("status", .str "error"), ("error", .str m)]

end McpServer

/-- Characters that leave the scanner state unchanged outside a string:
anything but a quote or a brace. -/
def scanNeutral (c : Char) : Bool :=
  !(c = '"' || c = '\x7b' || c = '\x7d')

/-- A span the scanner traverses (from outside any string, no pending
escape) without changing state or terminating, for every starting depth
of at least one. -/
def ChunkKeep (span : List Char) : Prop :=
  ∀ d : Int, 1 ≤ d → scanChunk ⟨d, false, false⟩ span = some ⟨d, false, false⟩

/-- A members-with-closing-brace span: at depth at least two the scanner
ends one level down without terminating; at depth one it terminates
exactly at the last character of the span. -/
def ChunkClose (span : List Char) : Prop :=
  (∀ d : Int, 2 ≤ d → scanChunk ⟨d, false, false⟩ span = some ⟨d - 1, false, false⟩) ∧
  (∀ tail, scanEnd ⟨1, false, false⟩ (span ++ tail) = some (span.length - 1))

/-- The reply parse phase of one loop round recognizes `d`: either the
whole reply parses to it, or whole-text parsing fails and the embedded
extraction recovers it. -/
def RecognizesData (rd : Round) (d : Json) : Prop :=
  json_loads rd.reply.data = some d ∨
    (json_loads rd.reply.data = none ∧ extract_json_object rd.reply.data = some d)

instance decJsonLoadsNone (o : Option Json) : Decidable (o = none) :=
  match o with
  | none => isTrue rfl
  | some _ => isFalse (fun h => Option.noConfusion h)

/-! ## Claim theorems: bridge and worker contracts -/

theorem findBraceAux_some {text : List Char} :
    ∀ fuel s i, findBraceAux text fuel s = some i →
      s ≤ i ∧ i < text.length ∧ text.get? i = some '\x7b' := by
  intro fuel
  induction fuel with
  | zero =>
    intro s i h
    cases h
  | succ fuel ih =>
    intro s i h
    rw [findBraceAux] at h
    split at h
    · next hlt =>
      split at h
      · next heq =>
        cases h
        exact ⟨Nat.le_refl _, hlt, by rw [List.get?_eq_get hlt, heq]⟩
      · have hrec := ih (s + 1) i h
        exact ⟨by omega, hrec.2.1, hrec.2.2⟩
    · cases h

theorem findBrace_some {text : List Char} {s i : Nat}
    (h : findBrace text s = some i) :
    s ≤ i ∧ i < text.length ∧ text.get? i = some '\x7b' :=
  findBraceAux_some _ s i h

/-- Claim C2: `_normalize_result` raises a failure carrying the worker's
diagnostic payload on an explicit error flag, returns a pre-structured
payload verbatim, and otherwise reduces each content block to its text
when present (resource blocks to their inline text when present, else
their structural form), normalizing zero blocks to an empty value, one
block to its reduced value, and two or more blocks to the ordered
sequence of reduced values. -/
theorem C2_normalize_result (r : CallToolResult) :
    (r.isError = true →
      normalize_result r = .error ("Tool call failed: " ++ r.dumpRepr)) ∧
    (r.isError = false → ∀ v, r.structuredContent = some v →
      normalize_result r = .ok v) ∧
    (r.isError = false → r.structuredContent = none → r.content = [] →
      normalize_result r = .ok .null) ∧
    (r.isError = false → r.structuredContent = none → ∀ b, r.content = [b] →
      normalize_result r = .ok (reduceBlock b)) ∧
    (r.isError = false → r.structuredContent = none → ∀ b1 b2 bs,
      r.content = b1 :: b2 :: bs →
      normalize_result r = .ok (.arr (reduceBlock b1 :: reduceBlock b2 :: bs.map reduceBlock))) := by
  refine ⟨?_, ?_, ?_, ?_, ?_⟩
  · intro he
    simp [normalize_result, he]
  · intro he v hv
    simp [normalize_result, he, hv]
  · intro he hs hc
    simp [normalize_result, he, hs, hc]
  · intro he hs b hc
    simp [normalize_result, he, hs, hc]
  · intro he hs b1 b2 bs hc
    simp [normalize_result, he, hs, hc]

/-- Witness for C2 at concrete replies: a single text block reduces to
its text, and an error reply raises with the diagnostic payload. -/
theorem C2_normalize_result_witness :
    normalize_result ⟨false, none, [ContentBlock.text "hi"], "d"⟩ = .ok (.str "hi") ∧
    normalize_result ⟨true, none, [], "boom"⟩ = .error "Tool call failed: boom" := by
  exact ⟨(C2_normalize_result ⟨false, none, [ContentBlock.text "hi"], "d"⟩).2.2.2.1 rfl rfl
      (ContentBlock.text "hi") rfl,
    (C2_normalize_result ⟨true, none, [], "boom"⟩).1 rfl⟩

/-- Claim C8: the client-side `run_command` rejects a non-positive
timeout by raising before any worker session is used (the result does
not depend on the session behavior), and forwards the call to the
worker for a positive timeout. -/
theorem C8_run_command_timeout_guard :
    (∀ callTool command (t : Int), t ≤ 0 →
      McpClient.run_command callTool command t = .raises "timeout must be positive") ∧
    (∀ callTool callTool' command (t : Int), t ≤ 0 →
      McpClient.run_command callTool command t = McpClient.run_command callTool' command t) ∧
    (∀ callTool command (t : Int), 0 < t →
      McpClient.run_command callTool command t =
        callTool "run_command" [("command", .str command), ("timeout", .num (toString t))]) := by
  refine ⟨?_, ?_, ?_⟩
  · intro ct c t ht
    simp [McpClient.run_command, ht]
  · intro ct ct' c t ht
    simp [McpClient.run_command, ht]
  · intro ct c t ht
    have h0 : ¬ t ≤ 0 := by omega
    simp [McpClient.run_command, h0]

/-- Witness for C8 at `timeout = 0` and `timeout = 5`. -/
theorem C8_run_command_timeout_guard_witness :
    McpClient.run_command (fun _ _ => .ok .null) "ls" 0 = .raises "timeout must be positive" ∧
    McpClient.run_command (fun _ _ => .ok .null) "ls" 5 =
      .ok Json.null := by
  refine ⟨C8_run_command_timeout_guard.1 _ "ls" 0 (by omega), ?_⟩
  have h := C8_run_command_timeout_guard.2.2 (fun _ _ => .ok .null) "ls" 5 (by omega)
  simpa using h

/-- Claim C10: for a non-empty host and a port in 1..65535, a connect
attempt ending in timeout or refusal yields the success-shaped result
`{status: ok, host, port, open: false}` with no latency field; latency
is present only on an open port. -/
theorem C10_scan_port_closed (host : String) (port : Int) (elapsed : Py)
    (hh : pyStrip host ≠ "") (h1 : 1 ≤ port) (h2 : port ≤ 65535) :
    McpServer.scan_port host port .timeoutOrRefused elapsed =
      .dict [("status", .str "ok"), ("host", .str host), ("port", .int port),
             ("open", .bool false)] ∧
    pyHasKey (McpServer.scan_port host port .timeoutOrRefused elapsed) "latency" = false ∧
    pyHasKey (McpServer.scan_port host port .connected elapsed) "latency" = true := by
  have hp : (0 < port && port < 65536) = true := by
    simp only [Bool.and_eq_true, decide_eq_true_eq]
    omega
  refine ⟨?_, ?_, ?_⟩ <;>
    simp [McpServer.scan_port, hh, hp, pyHasKey, pyGet]

/-- Witness for C10 at `host = "example.com"`, `port = 80`. -/
theorem C10_scan_port_closed_witness :
    McpServer.scan_port "example.com" 80 .timeoutOrRefused (.ext "t") =
      .dict [("status", .str "ok"), ("host", .str "example.com"), ("port", .int 80),
             ("open", .bool false)] ∧
    pyHasKey (McpServer.scan_port "example.com" 80 .timeoutOrRefused (.ext "t")) "latency" = false := by
  have h := C10_scan_port_closed "example.com" 80 (.ext "t") (by decide) (by omega) (by omega)
  exact ⟨h.1, h.2.1⟩

/-- Counterexample to claim C9 as stated: on a platform without
`os.getloadavg` and without `/proc/uptime` the unsupported fields are
not absent from the mapping — they are present with value `None`. -/
theorem C9_counterexample :
    pyHasKey (McpServer.system_info ⟨"", "", "", "", "", .none, false, none, none⟩)
      "load_avg" = true ∧
    pyGet (McpServer.system_info ⟨"", "", "", "", "", .none, false, none, none⟩)
      "load_avg" = some .none ∧
    pyHasKey (McpServer.system_info ⟨"", "", "", "", "", .none, false, none, none⟩)
      "uptime_seconds" = true := by
  exact ⟨rfl, rfl, rfl⟩

/-- Claim C9 (amended): `system_info` always returns a mapping without
failing; every field is always present, and a platform-unsupported
`load_avg` or `uptime_seconds` is reported with the `None` value (not
absent). -/
theorem C9_system_info_total (e : McpServer.SysEnv) :
    (∃ xs, McpServer.system_info e = .dict xs) ∧
    pyHasKey (McpServer.system_info e) "load_avg" = true ∧
    pyHasKey (McpServer.system_info e) "uptime_seconds" = true ∧
    pyHasKey (McpServer.system_info e) "platform" = true ∧
    (e.hasGetloadavg = false → pyGet (McpServer.system_info e) "load_avg" = some .none) ∧
    (e.loadavg = none → pyGet (McpServer.system_info e) "load_avg" = some .none) ∧
    (e.uptime = none → pyGet (McpServer.system_info e) "uptime_seconds" = some .none) := by
  obtain ⟨pf, sys, rel, pyv, arch, cpu, hl, la, up⟩ := e
  cases hl <;> cases la <;> cases up <;>
    refine ⟨⟨_, rfl⟩, rfl, rfl, rfl, ?_, ?_, ?_⟩ <;>
      first
        | (intro h; rfl)
        | (intro h; cases h)

/-- Witness for C9 (amended) on a platform without either probe. -/
theorem C9_system_info_total_witness :
    pyGet (McpServer.system_info ⟨"p", "s", "r", "v", "a", .int 4, false, none, none⟩)
      "load_avg" = some .none ∧
    pyGet (McpServer.system_info ⟨"p", "s", "r", "v", "a", .int 4, false, none, none⟩)
      "uptime_seconds" = some .none := by
  exact ⟨(C9_system_info_total ⟨"p", "s", "r", "v", "a", .int 4, false, none, none⟩).2.2.2.2.1 rfl,
    (C9_system_info_total ⟨"p", "s", "r", "v", "a", .int 4, false, none, none⟩).2.2.2.2.2.2 rfl⟩

/-- Counterexample to claim C5 as stated: `read_file` on a missing file
returns a mapping with no `status` field at all, and `run_command` on a
process exiting nonzero returns `status = "error"` without any `error`
message field. -/
theorem C5_counterexample :
    pyHasKey (McpServer.read_file .notFound) "status" = false ∧
    pyGet (McpServer.read_file .notFound) "error" = some (.str "file not found") ∧
    pyGet (McpServer.run_command "ls" 30 (.completed 1 "" "")) "status" =
      some (.str "error") ∧
    pyHasKey (McpServer.run_command "ls" 30 (.completed 1 "" "")) "error" = false := by
  exact ⟨rfl, rfl, rfl, rfl⟩

/-- Claim C5 (amended): `append_log` and `scan_port` results and every
dispatch-synthesized failure carry `status ∈ {ok, error}` with an error
message present whenever the status is `error`; `run_command`,
`ping_host` and `ssh_command` results always carry `status ∈ {ok, error}`
and carry either an `error` message or (for a completed process with
nonzero exit status) the `returncode` field; `read_file` and
`system_info` return mappings without any `status` field (`read_file`
signals failure through an `error` field beside `content`). -/
theorem C5_tool_result_shape :
    (∀ out, pyGet (McpServer.append_log out) "status" = some (.str "ok") ∨
      (pyGet (McpServer.append_log out) "status" = some (.str "error") ∧
       pyHasKey (McpServer.append_log out) "error" = true)) ∧
    (∀ host port out elapsed,
      pyGet (McpServer.scan_port host port out elapsed) "status" = some (.str "ok") ∨
      (pyGet (McpServer.scan_port host port out elapsed) "status" = some (.str "error") ∧
       pyHasKey (McpServer.scan_port host port out elapsed) "error" = true)) ∧
    (∀ m, jsonGet? (errorResult m) "status" = some (.str "error") ∧
      jsonGet? (errorResult m) "error" = some (.str m)) ∧
    (∀ c t out, pyGet (McpServer.run_command c t out) "status" = some (.str "ok") ∨
      (pyGet (McpServer.run_command c t out) "status" = some (.str "error") ∧
       (pyHasKey (McpServer.run_command c t out) "error" = true ∨
        pyHasKey (McpServer.run_command c t out) "returncode" = true))) ∧
    (∀ host count t bin out,
      pyGet (McpServer.ping_host host count t bin out) "status" = some (.str "ok") ∨
      (pyGet (McpServer.ping_host host count t bin out) "status" = some (.str "error") ∧
       (pyHasKey (McpServer.ping_host host count t bin out) "error" = true ∨
        pyHasKey (McpServer.ping_host host count t bin out) "returncode" = true))) ∧
    (∀ host cmd user port kp t bin out,
      pyGet (McpServer.ssh_command host cmd user port kp t bin out) "status" =
        some (.str "ok") ∨
      (pyGet (McpServer.ssh_command host cmd user port kp t bin out) "status" =
        some (.str "error") ∧
       (pyHasKey (McpServer.ssh_command host cmd user port kp t bin out) "error" = true ∨
        pyHasKey (McpServer.ssh_command host cmd user port kp t bin out) "returncode" = true))) ∧
    (∀ out, pyHasKey (McpServer.read_file out) "status" = false ∧
      pyHasKey (McpServer.read_file out) "content" = true) ∧
    (∀ e, pyHasKey (McpServer.system_info e) "status" = false) := by
  refine ⟨?_, ?_, ?_, ?_, ?_, ?_, ?_, ?_⟩
  · intro out
    cases out
    · exact Or.inl rfl
    · exact Or.inr ⟨rfl, rfl⟩
  · intro host port out elapsed
    by_cases hh : pyStrip host = ""
    · exact Or.inr ⟨by simp [McpServer.scan_port, hh, pyGet],
        by simp [McpServer.scan_port, hh, pyHasKey, pyGet]⟩
    · by_cases hp : (0 < port && port < 65536) = true
      · cases out
        · exact Or.inl (by simp [McpServer.scan_port, hh, hp, pyGet])
        · exact Or.inl (by simp [McpServer.scan_port, hh, hp, pyGet])
        · exact Or.inr ⟨by simp [McpServer.scan_port, hh, hp, pyGet],
            by simp [McpServer.scan_port, hh, hp, pyHasKey, pyGet]⟩
      · exact Or.inr ⟨by simp [McpServer.scan_port, hh, hp, pyGet],
          by simp [McpServer.scan_port, hh, hp, pyHasKey, pyGet]⟩
  · intro m
    exact ⟨rfl, rfl⟩
  · intro c t out
    by_cases hc : pyStrip c = ""
    · exact Or.inr ⟨by simp [McpServer.run_command, hc, pyGet],
        Or.inl (by simp [McpServer.run_command, hc, pyHasKey, pyGet])⟩
    · cases out with
      | completed rc so se =>
        by_cases hrc : rc = 0
        · exact Or.inl (by
            simp [McpServer.run_command, McpServer.proc_result, hc, hrc, pyGet])
        · refine Or.inr ⟨by
            simp [McpServer.run_command, McpServer.proc_result, hc, hrc, pyGet], Or.inr (by
            simp [McpServer.run_command, McpServer.proc_result, hc, hrc, pyHasKey, pyGet])⟩
      | timeout =>
        exact Or.inr ⟨by simp [McpServer.run_command, hc, pyGet],
          Or.inl (by simp [McpServer.run_command, hc, pyHasKey, pyGet])⟩
      | exc m =>
        exact Or.inr ⟨by simp [McpServer.run_command, hc, pyGet],
          Or.inl (by simp [McpServer.run_command, hc, pyHasKey, pyGet])⟩
  · intro host count t bin out
    by_cases hh : pyStrip host = ""
    · exact Or.inr ⟨by simp [McpServer.ping_host, hh, pyGet],
        Or.inl (by simp [McpServer.ping_host, hh, pyHasKey, pyGet])⟩
    · cases bin with
      | none =>
        exact Or.inr ⟨by simp [McpServer.ping_host, hh, pyGet],
          Or.inl (by simp [McpServer.ping_host, hh, pyHasKey, pyGet])⟩
      | some b =>
        cases out with
        | completed rc so se =>
          by_cases hrc : rc = 0
          · exact Or.inl (by
              simp [McpServer.ping_host, McpServer.proc_result, hh, hrc, pyGet])
          · refine Or.inr ⟨by
              simp [McpServer.ping_host, McpServer.proc_result, hh, hrc, pyGet], Or.inr (by
              simp [McpServer.ping_host, McpServer.proc_result, hh, hrc, pyHasKey, pyGet])⟩
        | timeout =>
          exact Or.inr ⟨by simp [McpServer.ping_host, hh, pyGet],
            Or.inl (by simp [McpServer.ping_host, hh, pyHasKey, pyGet])⟩
        | exc m =>
          exact Or.inr ⟨by simp [McpServer.ping_host, hh, pyGet],
            Or.inl (by simp [McpServer.ping_host, hh, pyHasKey, pyGet])⟩
  · intro host cmd user port kp t bin out
    by_cases hh : pyStrip host = ""
    · exact Or.inr ⟨by simp [McpServer.ssh_command, hh, pyGet],
        Or.inl (by simp [McpServer.ssh_command, hh, pyHasKey, pyGet])⟩
    · by_cases hc : pyStrip cmd = ""
      · exact Or.inr ⟨by simp [McpServer.ssh_command, hh, hc, pyGet],
          Or.inl (by simp [McpServer.ssh_command, hh, hc, pyHasKey, pyGet])⟩
      · cases bin with
        | none =>
          exact Or.inr ⟨by simp [McpServer.ssh_command, hh, hc, pyGet],
            Or.inl (by simp [McpServer.ssh_command, hh, hc, pyHasKey, pyGet])⟩
        | some b =>
          cases out with
          | completed rc so se =>
            by_cases hrc : rc = 0
            · exact Or.inl (by
                simp [McpServer.ssh_command, McpServer.proc_result, hh, hc, hrc, pyGet])
            · refine Or.inr ⟨by
                simp [McpServer.ssh_command, McpServer.proc_result, hh, hc, hrc, pyGet],
                Or.inr (by
                simp [McpServer.ssh_command, McpServer.proc_result, hh, hc, hrc,
                  pyHasKey, pyGet])⟩
          | timeout =>
            exact Or.inr ⟨by simp [McpServer.ssh_command, hh, hc, pyGet],
              Or.inl (by simp [McpServer.ssh_command, hh, hc, pyHasKey, pyGet])⟩
          | exc m =>
            exact Or.inr ⟨by simp [McpServer.ssh_command, hh, hc, pyGet],
              Or.inl (by simp [McpServer.ssh_command, hh, hc, pyHasKey, pyGet])⟩
  · intro out
    cases out <;> exact ⟨rfl, rfl⟩
  · intro e
    obtain ⟨pf, sys, rel, pyv, arch, cpu, hl, la, up⟩ := e
    cases hl <;> cases la <;> cases up <;> rfl

/-- Counterexample to claim C6 as stated: a truthy non-mapping `args`
value (here the string `"xyz"`) is not replaced by an empty mapping —
`data.get("args", {}) or {}` keeps it, and for a tool whose
confirmation preview does not read the args it reaches `func(**args)`,
which raises a `TypeError` inside the guarded call; dispatch reports it
as an error ToolResult rather than running with empty args. -/
theorem C6_counterexample :
    dispatchArgs (.obj [("tool", .str "read_file"), ("args", .str "xyz")]) = .str "xyz" ∧
    Json.str "xyz" ≠ Json.obj [] ∧
    step { reply := "\x7b\"tool\": \"read_file\", \"args\": \"xyz\"\x7d",
           answers := ["y"],
           invoke := fun _ _ =>
             .raises "read_file() argument after ** must be a mapping, not str" } [] =
      .more [⟨"assistant", .str "\x7b\"tool\": \"read_file\", \"args\": \"xyz\"\x7d"⟩,
             ⟨"user", .str "Tool read_file result: \x7b\"status\": \"error\", \"error\": \"read_file() argument after ** must be a mapping, not str\"\x7d"⟩] := by
  refine ⟨rfl, by simp, ?_⟩
  rfl

/-- Claim C6 (amended): a missing or falsy `args` value (absent key,
`null`, `false`, empty string, any zero-valued number lexeme such as
`0`, `0.0` or `0e5`, empty list, empty mapping) defaults to the empty
argument mapping; a truthy `args` value is kept as-is even when it is
not a mapping — for run_command, ping_host and ssh_command the
confirmation preview then raises uncaught on the non-mapping, and for
the remaining tools the kept value reaches `func(**args)` inside the
guarded call. -/
theorem C6_malformed_args_default (d : Json) :
    (jsonGet? d "args" = none → dispatchArgs d = .obj []) ∧
    (∀ v, jsonGet? d "args" = some v → pyTruthy v = false → dispatchArgs d = .obj []) ∧
    (∀ v, jsonGet? d "args" = some v → pyTruthy v = true → dispatchArgs d = v) ∧
    (∀ s v, (s = "run_command" ∨ s = "ping_host" ∨ s = "ssh_command") →
      jsonIsDict v = false → confirm_preview_raises s v = true) := by
  refine ⟨?_, ?_, ?_, ?_⟩
  · intro h
    simp [dispatchArgs, h, pyTruthy]
  · intro v h ht
    simp [dispatchArgs, h, ht]
  · intro v h ht
    simp [dispatchArgs, h, ht]
  · intro s v hs hv
    rcases hs with h | h | h <;> subst h <;> simp [confirm_preview_raises, hv]

/-- Witness for C6 (amended): `args: null` and `args: 0e5` default to
the empty mapping, a missing key defaults too, `args: "xyz"` is kept,
and a kept non-mapping makes the run_command preview raise. -/
theorem C6_malformed_args_default_witness :
    dispatchArgs (.obj [("tool", .str "read_file"), ("args", .null)]) = .obj [] ∧
    dispatchArgs (.obj [("tool", .str "read_file"), ("args", .num "0e5")]) = .obj [] ∧
    dispatchArgs (.obj [("tool", .str "read_file")]) = .obj [] ∧
    dispatchArgs (.obj [("tool", .str "read_file"), ("args", .str "xyz")]) = .str "xyz" ∧
    confirm_preview_raises "run_command" (.str "xyz") = true := by
  exact ⟨(C6_malformed_args_default _).2.1 .null rfl rfl,
    (C6_malformed_args_default _).2.1 (.num "0e5") rfl rfl,
    (C6_malformed_args_default _).1 rfl,
    (C6_malformed_args_default _).2.2.1 (.str "xyz") rfl rfl,
    (C6_malformed_args_default .null).2.2.2 "run_command" (.str "xyz") (Or.inl rfl) rfl⟩

/-! ## Dispatch-loop lemmas and theorems (C3, C4, C7) -/

theorem step_tool_confirmed (rd : Round) (msgs : List Msg) (d : Json) (s : String)
    (hp : RecognizesData rd d) (hd : jsonIsDict d = true)
    (ht : jsonGet? d "tool" = some (.str s)) (hk : knownTool (.str s) = true)
    (hprev : confirm_preview_raises s (dispatchArgs d) = false)
    (hc : confirm_tool_decision rd.answers = some true) :
    step rd msgs = .more (msgs ++
      [⟨"assistant", .str rd.reply⟩,
       ⟨"user", .str (toolResultText (.str s)
          (match rd.invoke s (dispatchArgs d) with
           | .ok v => v
           | .raises m => errorResult m))⟩]) := by
  rcases hp with h | ⟨h1, h2⟩
  · simp [step, h, handleData, hd, ht, hk, hprev, hc, jsonHashable]
  · simp [step, h1, h2, handleData, hd, ht, hk, hprev, hc, jsonHashable]

theorem step_tool_unknown (rd : Round) (msgs : List Msg) (d : Json) (t : Json)
    (hp : RecognizesData rd d) (hd : jsonIsDict d = true)
    (ht : jsonGet? d "tool" = some t) (hhash : jsonHashable t = true)
    (hk : knownTool t = false) :
    step rd msgs = .done (msgs ++
      [⟨"assistant", .str rd.reply⟩, ⟨"user", .str (unknownToolMsg t)⟩]) := by
  rcases hp with h | ⟨h1, h2⟩
  · simp [step, h, handleData, hd, ht, hhash, hk]
  · simp [step, h1, h2, handleData, hd, ht, hhash, hk]

theorem step_tool_declined (rd : Round) (msgs : List Msg) (d : Json) (s : String)
    (hp : RecognizesData rd d) (hd : jsonIsDict d = true)
    (ht : jsonGet? d "tool" = some (.str s)) (hk : knownTool (.str s) = true)
    (hprev : confirm_preview_raises s (dispatchArgs d) = false)
    (hc : confirm_tool_decision rd.answers = some false) :
    step rd msgs = .done (msgs ++
      [⟨"assistant", .str rd.reply⟩, ⟨"user", .str (declinedMsg (.str s))⟩]) := by
  rcases hp with h | ⟨h1, h2⟩
  · simp [step, h, handleData, hd, ht, hk, hprev, hc, jsonHashable]
  · simp [step, h1, h2, handleData, hd, ht, hk, hprev, hc, jsonHashable]

theorem step_tool_unhashable_whole (rd : Round) (msgs : List Msg) (d : Json) (t : Json)
    (hp : json_loads rd.reply.data = some d) (hd : jsonIsDict d = true)
    (ht : jsonGet? d "tool" = some t) (hhash : jsonHashable t = false) :
    step rd msgs = .crash msgs := by
  simp [step, hp, handleData, hd, ht, hhash]

theorem step_tool_unhashable_extracted (rd : Round) (msgs : List Msg) (d : Json) (t : Json)
    (hp1 : json_loads rd.reply.data = none)
    (hp2 : extract_json_object rd.reply.data = some d) (hd : jsonIsDict d = true)
    (ht : jsonGet? d "tool" = some t) (hhash : jsonHashable t = false) :
    step rd msgs = .crash (msgs ++ [⟨"assistant", .str rd.reply⟩]) := by
  simp [step, hp1, hp2, handleData, hd, ht, hhash]

theorem step_tool_preview_crash (rd : Round) (msgs : List Msg) (d : Json) (s : String)
    (hp : RecognizesData rd d) (hd : jsonIsDict d = true)
    (ht : jsonGet? d "tool" = some (.str s)) (hk : knownTool (.str s) = true)
    (hprev : confirm_preview_raises s (dispatchArgs d) = true) :
    step rd msgs = .crash (msgs ++ [⟨"assistant", .str rd.reply⟩]) := by
  rcases hp with h | ⟨h1, h2⟩
  · simp [step, h, handleData, hd, ht, hk, hprev, jsonHashable]
  · simp [step, h1, h2, handleData, hd, ht, hk, hprev, jsonHashable]

/-- Counterexample to claim C4 as stated: for a tool name that is not a
string — `{"tool": ["x"]}`, whose name is certainly not in the static
capability table — `TOOL_MAP.get(tool_name)` raises an uncaught
`TypeError: unhashable type` and the process dies before any message is
appended: the turn does not stop with a user-visible unknown-tool
notice. -/
theorem C4_counterexample :
    step { reply := "\x7b\"tool\": [\"x\"]\x7d", answers := [],
           invoke := fun _ _ => .ok .null } [] = .crash [] ∧
    StepRes.crash ([] : List Msg) ≠
      StepRes.done [⟨"assistant", .str "\x7b\"tool\": [\"x\"]\x7d"⟩,
                    ⟨"user", .str (unknownToolMsg (.arr [.str "x"]))⟩] := by
  exact ⟨rfl, by simp⟩

/-- Claim C4 (amended): an unknown but hashable tool name stops the turn
with the unknown-tool notice and never reaches the bridge nor the
confirmation prompt (the outcome is independent of both); an unhashable
tool name (list or mapping) instead crashes the process with an
uncaught `TypeError` before any notice; a declined (negative or empty)
confirmation — which requires the preview synthesis not to raise —
stops the turn with the distinct declined notice and never invokes the
tool, while args on which the preview synthesis raises crash the
process before any prompt. -/
theorem C4_unknown_and_declined_stop (rd : Round) (msgs : List Msg) (d : Json) :
    (∀ t, RecognizesData rd d → jsonIsDict d = true → jsonGet? d "tool" = some t →
      jsonHashable t = true → knownTool t = false →
      step rd msgs = .done (msgs ++
        [⟨"assistant", .str rd.reply⟩, ⟨"user", .str (unknownToolMsg t)⟩]) ∧
      ∀ inv' ans', step { rd with invoke := inv', answers := ans' } msgs = step rd msgs) ∧
    (∀ t, json_loads rd.reply.data = some d → jsonIsDict d = true →
      jsonGet? d "tool" = some t → jsonHashable t = false →
      step rd msgs = .crash msgs) ∧
    (∀ s, RecognizesData rd d → jsonIsDict d = true →
      jsonGet? d "tool" = some (.str s) → knownTool (.str s) = true →
      confirm_preview_raises s (dispatchArgs d) = false →
      confirm_tool_decision rd.answers = some false →
      step rd msgs = .done (msgs ++
        [⟨"assistant", .str rd.reply⟩, ⟨"user", .str (declinedMsg (.str s))⟩]) ∧
      ∀ inv', step { rd with invoke := inv' } msgs = step rd msgs) ∧
    (∀ s, RecognizesData rd d → jsonIsDict d = true →
      jsonGet? d "tool" = some (.str s) → knownTool (.str s) = true →
      confirm_preview_raises s (dispatchArgs d) = true →
      step rd msgs = .crash (msgs ++ [⟨"assistant", .str rd.reply⟩])) ∧
    (∀ a rest, (pyLower (pyStrip a) = "n" ∨ pyLower (pyStrip a) = "no" ∨
        pyLower (pyStrip a) = "") →
      confirm_tool_decision (a :: rest) = some false) ∧
    (∀ t, unknownToolMsg t ≠ declinedMsg t) := by
  refine ⟨?_, ?_, ?_, ?_, ?_, ?_⟩
  · intro t hp hd ht hhash hk
    have h1 := step_tool_unknown rd msgs d t hp hd ht hhash hk
    refine ⟨h1, ?_⟩
    intro inv' ans'
    have h2 := step_tool_unknown { rd with invoke := inv', answers := ans' } msgs d t
      hp hd ht hhash hk
    rw [h1, h2]
  · intro t hp hd ht hhash
    exact step_tool_unhashable_whole rd msgs d t hp hd ht hhash
  · intro s hp hd ht hk hprev hc
    have h1 := step_tool_declined rd msgs d s hp hd ht hk hprev hc
    refine ⟨h1, ?_⟩
    intro inv'
    have h2 := step_tool_declined { rd with invoke := inv' } msgs d s hp hd ht hk hprev hc
    rw [h1, h2]
  · intro s hp hd ht hk hprev
    exact step_tool_preview_crash rd msgs d s hp hd ht hk hprev
  · intro a rest hch
    rcases hch with h | h | h <;> simp [confirm_tool_decision, h]
  · intro t h
    have h2 := congrArg String.data h
    simp only [unknownToolMsg, declinedMsg, String.data_append] at h2
    simp [List.cons_append] at h2

/-- Witness for C4 at a concrete unknown-tool reply and a concrete
declined confirmation. -/
theorem C4_unknown_and_declined_stop_witness :
    step { reply := "\x7b\"tool\": \"format_disk\"\x7d", answers := [],
           invoke := fun _ _ => .ok .null } [] =
      .done [⟨"assistant", .str "\x7b\"tool\": \"format_disk\"\x7d"⟩,
             ⟨"user", .str "Unknown tool 'format_disk'."⟩] ∧
    step { reply := "\x7b\"tool\": \"run_command\", \"args\": \x7b\"command\": \"rm -rf\"\x7d\x7d",
           answers := [""], invoke := fun _ _ => .ok .null } [] =
      .done [⟨"assistant",
              .str "\x7b\"tool\": \"run_command\", \"args\": \x7b\"command\": \"rm -rf\"\x7d\x7d"⟩,
             ⟨"user", .str "User declined to run tool run_command."⟩] ∧
    unknownToolMsg (.str "run_command") ≠ declinedMsg (.str "run_command") := by
  refine ⟨?_, ?_, ?_⟩
  · exact ((C4_unknown_and_declined_stop
      { reply := "\x7b\"tool\": \"format_disk\"\x7d", answers := [],
        invoke := fun _ _ => .ok .null } []
      (.obj [("tool", .str "format_disk")])).1 (.str "format_disk")
      (Or.inl (by rfl)) rfl rfl rfl rfl).1
  · exact ((C4_unknown_and_declined_stop
      { reply := "\x7b\"tool\": \"run_command\", \"args\": \x7b\"command\": \"rm -rf\"\x7d\x7d",
        answers := [""], invoke := fun _ _ => .ok .null } []
      (.obj [("tool", .str "run_command"),
             ("args", .obj [("command", .str "rm -rf")])])).2.2.1 "run_command"
      (Or.inl (by rfl)) rfl rfl rfl rfl rfl).1
  · exact (C4_unknown_and_declined_stop
      { reply := "", answers := [], invoke := fun _ _ => .ok .null } []
      .null).2.2.2.2.2 (.str "run_command")

/-- Counterexample to claim C3 as stated: `str(exc)` of a raised
exception can be empty (e.g. `raise RuntimeError()`), in which case the
synthesized ToolResult carries an empty — not non-empty — diagnostic.
The transcript line records `"error": ""`. -/
theorem C3_counterexample :
    step { reply := "\x7b\"tool\": \"read_file\", \"args\": \x7b\x7d\x7d",
           answers := ["y"], invoke := fun _ _ => .raises "" } [] =
      .more [⟨"assistant", .str "\x7b\"tool\": \"read_file\", \"args\": \x7b\x7d\x7d"⟩,
             ⟨"user", .str "Tool read_file result: \x7b\"status\": \"error\", \"error\": \"\"\x7d"⟩] ∧
    jsonGet? (errorResult "") "error" = some (.str "") ∧
    ("" : String).length = 0 := by
  exact ⟨rfl, rfl, rfl⟩

/-- Claim C3 (amended): every exception raised by a confirmed tool
invocation is caught and converted into the ToolResult
`{status: error, error: str(exc)}` (whose diagnostic equals the
exception's message, hence is non-empty whenever that message is); the
exception never propagates out of dispatch, the error result is appended
to the transcript exactly like any other tool result, and the loop
continues with the next model request. Only invocations that pass the
confirmation step are covered: inputs whose confirmation preview
synthesis itself raises (run_command, ping_host or ssh_command with a
truthy non-mapping args, or a count, timeout or port value that int()
rejects) crash the process before any invocation. -/
theorem C3_invocation_failure_caught (rd : Round) (msgs : List Msg) (d : Json)
    (s m : String)
    (hp : RecognizesData rd d) (hd : jsonIsDict d = true)
    (ht : jsonGet? d "tool" = some (.str s)) (hk : knownTool (.str s) = true)
    (hprev : confirm_preview_raises s (dispatchArgs d) = false)
    (hc : confirm_tool_decision rd.answers = some true)
    (hi : rd.invoke s (dispatchArgs d) = .raises m) :
    step rd msgs = .more (msgs ++
      [⟨"assistant", .str rd.reply⟩,
       ⟨"user", .str (toolResultText (.str s) (errorResult m))⟩]) ∧
    jsonGet? (errorResult m) "status" = some (.str "error") ∧
    jsonGet? (errorResult m) "error" = some (.str m) ∧
    (m ≠ "" → (Json.str m) ≠ .str "") := by
  refine ⟨?_, rfl, rfl, ?_⟩
  · have h := step_tool_confirmed rd msgs d s hp hd ht hk hprev hc
    rw [h, hi]
  · intro hm h
    exact hm (by injection h)

/-- Witness for C3 (amended): a worker-timeout style failure message. -/
theorem C3_invocation_failure_caught_witness :
    step { reply := "\x7b\"tool\": \"run_command\", \"args\": \x7b\"command\": \"sleep 99\"\x7d\x7d",
           answers := ["y"],
           invoke := fun _ _ => .raises "command timed out after 30s" } [] =
      .more [⟨"assistant",
              .str "\x7b\"tool\": \"run_command\", \"args\": \x7b\"command\": \"sleep 99\"\x7d\x7d"⟩,
             ⟨"user", .str "Tool run_command result: \x7b\"status\": \"error\", \"error\": \"command timed out after 30s\"\x7d"⟩] := by
  exact (C3_invocation_failure_caught
    { reply := "\x7b\"tool\": \"run_command\", \"args\": \x7b\"command\": \"sleep 99\"\x7d\x7d",
      answers := ["y"], invoke := fun _ _ => .raises "command timed out after 30s" } []
    (.obj [("tool", .str "run_command"),
           ("args", .obj [("command", .str "sleep 99")])])
    "run_command" "command timed out after 30s"
    (Or.inl (by rfl)) rfl rfl rfl rfl rfl rfl).1

/-- Claim C7: within a round whose confirmation preview synthesis does
not raise, the serialized tool result is appended as a user message
immediately after the triggering assistant tool-call message, and the
next model request of the loop is issued on exactly that transcript —
the model sees the tool result before any later context. -/
theorem C7_transcript_order (rd : Round) (rest : List Round) (msgs : List Msg)
    (d : Json) (s : String)
    (hp : RecognizesData rd d) (hd : jsonIsDict d = true)
    (ht : jsonGet? d "tool" = some (.str s)) (hk : knownTool (.str s) = true)
    (hprev : confirm_preview_raises s (dispatchArgs d) = false)
    (hc : confirm_tool_decision rd.answers = some true) :
    process_assistant (rd :: rest) msgs =
      process_assistant rest (msgs ++
        [⟨"assistant", .str rd.reply⟩,
         ⟨"user", .str (toolResultText (.str s)
            (match rd.invoke s (dispatchArgs d) with
             | .ok v => v
             | .raises m => errorResult m))⟩]) := by
  have h := step_tool_confirmed rd msgs d s hp hd ht hk hprev hc
  simp [process_assistant, h]

/-- Witness for C7: the end-to-end port-scan round of the spec's test
scenario, one round followed by an empty script. -/
theorem C7_transcript_order_witness :
    process_assistant
      [{ reply := "\x7b\"tool\": \"scan_port\", \"args\": \x7b\"host\": \"example.com\", \"port\": 80\x7d\x7d",
         answers := ["y"],
         invoke := fun _ _ => .ok (.obj [("status", .str "ok"), ("open", .bool true)]) }]
      [⟨"system", .str "sys"⟩] =
      [⟨"system", .str "sys"⟩,
       ⟨"assistant",
        .str "\x7b\"tool\": \"scan_port\", \"args\": \x7b\"host\": \"example.com\", \"port\": 80\x7d\x7d"⟩,
       ⟨"user", .str "Tool scan_port result: \x7b\"status\": \"ok\", \"open\": true\x7d"⟩] := by
  have h := C7_transcript_order
    { reply := "\x7b\"tool\": \"scan_port\", \"args\": \x7b\"host\": \"example.com\", \"port\": 80\x7d\x7d",
      answers := ["y"],
      invoke := fun _ _ => .ok (.obj [("status", .str "ok"), ("open", .bool true)]) }
    [] [⟨"system", .str "sys"⟩]
    (.obj [("tool", .str "scan_port"),
           ("args", .obj [("host", .str "example.com"), ("port", .num "80")])])
    "scan_port" (Or.inl (by rfl)) rfl rfl rfl rfl rfl
  simpa [process_assistant] using h

/-! ## Scanner infrastructure for the C1 proof

The correspondence between the json reader and the brace scanner: a span
the reader accepts is traversed by the scanner without spurious
termination, and an object span terminates the scanner exactly at its
closing brace. -/

theorem scanChunk_append (st : ScanSt) (xs ys : List Char) :
    scanChunk st (xs ++ ys) = (scanChunk st xs).bind (fun st' => scanChunk st' ys) := by
  induction xs generalizing st with
  | nil => simp [scanChunk]
  | cons c cs ih =>
    simp only [List.cons_append, scanChunk]
    cases scanStep st c with
    | hit => simp
    | cont st' => simpa using ih st'

theorem scanChunk_append_some {st st1 st2 : ScanSt} {xs ys : List Char}
    (h1 : scanChunk st xs = some st1) (h2 : scanChunk st1 ys = some st2) :
    scanChunk st (xs ++ ys) = some st2 := by
  rw [scanChunk_append, h1]
  exact h2

theorem scanEnd_chunk_prefix {st st1 : ScanSt} {xs : List Char} (ys : List Char) {n : Nat}
    (h1 : scanChunk st xs = some st1) (h2 : scanEnd st1 ys = some n) :
    scanEnd st (xs ++ ys) = some (xs.length + n) := by
  induction xs generalizing st with
  | nil =>
    simp only [scanChunk] at h1
    cases h1
    simpa using h2
  | cons c cs ih =>
    simp only [scanChunk] at h1
    simp only [List.cons_append, scanEnd]
    revert h1
    cases hs : scanStep st c with
    | hit =>
      intro h1
      exact Option.noConfusion h1
    | cont st' =>
      intro h1
      have h1' : scanChunk st' cs = some st1 := h1
      show Option.map Nat.succ (scanEnd st' (cs ++ ys)) = some ((c :: cs).length + n)
      rw [ih h1']
      simp only [Option.map_some']
      congr 1
      simp only [List.length_cons]
      omega

theorem scanStep_neutral {c : Char} (h : scanNeutral c = true) (d : Int) (e : Bool) :
    scanStep ⟨d, false, e⟩ c = .cont ⟨d, false, e⟩ := by
  have h1 : c ≠ '"' := by intro he; subst he; simp [scanNeutral] at h
  have h2 : c ≠ '\x7b' := by intro he; subst he; simp [scanNeutral] at h
  have h3 : c ≠ '\x7d' := by intro he; subst he; simp [scanNeutral] at h
  simp [scanStep, h1, h2, h3]

theorem scanChunk_neutral {xs : List Char} (h : ∀ c ∈ xs, scanNeutral c = true)
    (d : Int) (e : Bool) : scanChunk ⟨d, false, e⟩ xs = some ⟨d, false, e⟩ := by
  induction xs with
  | nil => rfl
  | cons c cs ih =>
    simp only [scanChunk, scanStep_neutral (h c (by simp)) d e]
    exact ih (fun x hx => h x (by simp [hx]))

theorem jsonWs_neutral {c : Char} (h : jsonWs c = true) : scanNeutral c = true := by
  simp only [jsonWs, Bool.or_eq_true, decide_eq_true_eq] at h
  rcases h with ((h | h) | h) | h <;> subst h <;> rfl

theorem jsonWs_ne_brace {c : Char} (h : jsonWs c = true) : c ≠ '\x7b' := by
  have := jsonWs_neutral h
  intro he
  subst he
  simp [scanNeutral] at this

theorem scanNeutral_ne_brace {c : Char} (h : scanNeutral c = true) : c ≠ '\x7b' := by
  intro he
  subst he
  simp [scanNeutral] at h

theorem skipWs_split (cs : List Char) :
    ∃ ws, cs = ws ++ skipWs cs ∧ ∀ c ∈ ws, jsonWs c = true := by
  induction cs with
  | nil => exact ⟨[], rfl, by simp⟩
  | cons c cs ih =>
    by_cases h : jsonWs c = true
    · obtain ⟨ws, hws, hall⟩ := ih
      refine ⟨c :: ws, ?_, ?_⟩
      · simp only [skipWs, h, if_pos]
        simpa using hws
      · intro x hx
        rcases List.mem_cons.mp hx with hx | hx
        · subst hx; exact h
        · exact hall x hx
    · refine ⟨[], ?_, by simp⟩
      simp [skipWs, h]

theorem skipWs_eq_nil {cs : List Char} (h : skipWs cs = []) : ∀ c ∈ cs, jsonWs c = true := by
  induction cs with
  | nil => simp
  | cons c cs ih =>
    simp only [skipWs] at h
    split at h
    · next hw =>
      intro x hx
      rcases List.mem_cons.mp hx with hx | hx
      · subst hx; exact hw
      · exact ih h x hx
    · cases h

theorem head?_eq_mem {l : List Char} {a : Char} (h : l.head? = some a) : a ∈ l := by
  cases l with
  | nil => cases h
  | cons x xs =>
    simp only [List.head?] at h
    cases h
    simp

theorem scanEnd_lt_length {st : ScanSt} {l : List Char} {n : Nat}
    (h : scanEnd st l = some n) : n < l.length := by
  induction l generalizing st n with
  | nil => cases h
  | cons c cs ih =>
    simp only [scanEnd] at h
    revert h
    cases hs : scanStep st c with
    | hit =>
      intro h
      have h' : some 0 = some n := h
      cases h'
      simp
    | cont st' =>
      intro h
      have h' : Option.map Nat.succ (scanEnd st' cs) = some n := h
      cases hse : scanEnd st' cs with
      | none => simp [hse] at h'
      | some m =>
        rw [hse] at h'
        simp only [Option.map_some'] at h'
        cases h'
        have := ih hse
        simp only [List.length_cons]
        omega

/-! ## Scanner traversal of reader-accepted spans -/

theorem scanStep_inStr_esc (d : Int) (c : Char) :
    scanStep ⟨d, true, true⟩ c = .cont ⟨d, true, false⟩ := rfl

theorem scanStep_inStr_plain {c : Char} (h1 : c ≠ '\\') (h2 : c ≠ '"') (d : Int) :
    scanStep ⟨d, true, false⟩ c = .cont ⟨d, true, false⟩ := by
  simp [scanStep, h1, h2]

theorem scanStep_inStr_close (d : Int) :
    scanStep ⟨d, true, false⟩ '"' = .cont ⟨d, false, false⟩ := by
  simp [scanStep]

theorem scanStep_inStr_backslash (d : Int) :
    scanStep ⟨d, true, false⟩ '\\' = .cont ⟨d, true, true⟩ := by
  simp [scanStep]

theorem isHexC_inStr_step {c : Char} (h : isHexC c = true) (d : Int) :
    scanStep ⟨d, true, false⟩ c = .cont ⟨d, true, false⟩ := by
  have h1 : c ≠ '\\' := by intro he; subst he; exact absurd h (by decide)
  have h2 : c ≠ '"' := by intro he; subst he; exact absurd h (by decide)
  exact scanStep_inStr_plain h1 h2 d

theorem decodeEscape_split {cs rest : List Char} {dc : Char}
    (h : decodeEscape cs = some (dc, rest)) :
    ∃ echars, cs = echars ++ rest ∧ echars ≠ [] ∧
      ∀ d : Int, scanChunk ⟨d, true, true⟩ echars = some ⟨d, true, false⟩ := by
  cases cs with
  | nil => cases h
  | cons e cs' =>
    have step1 : ∀ d : Int, scanChunk ⟨d, true, true⟩ [e] = some ⟨d, true, false⟩ := by
      intro d
      simp [scanChunk, scanStep_inStr_esc]
    simp only [decodeEscape] at h
    by_cases h1 : e = '"'
    · rw [if_pos h1] at h; cases h; exact ⟨[e], rfl, by simp, step1⟩
    rw [if_neg h1] at h
    by_cases h2 : e = '\\'
    · rw [if_pos h2] at h; cases h; exact ⟨[e], rfl, by simp, step1⟩
    rw [if_neg h2] at h
    by_cases h3 : e = '/'
    · rw [if_pos h3] at h; cases h; exact ⟨[e], rfl, by simp, step1⟩
    rw [if_neg h3] at h
    by_cases h4 : e = 'b'
    · rw [if_pos h4] at h; cases h; exact ⟨[e], rfl, by simp, step1⟩
    rw [if_neg h4] at h
    by_cases h5 : e = 'f'
    · rw [if_pos h5] at h; cases h; exact ⟨[e], rfl, by simp, step1⟩
    rw [if_neg h5] at h
    by_cases h6 : e = 'n'
    · rw [if_pos h6] at h; cases h; exact ⟨[e], rfl, by simp, step1⟩
    rw [if_neg h6] at h
    by_cases h7 : e = 'r'
    · rw [if_pos h7] at h; cases h; exact ⟨[e], rfl, by simp, step1⟩
    rw [if_neg h7] at h
    by_cases h8 : e = 't'
    · rw [if_pos h8] at h; cases h; exact ⟨[e], rfl, by simp, step1⟩
    rw [if_neg h8] at h
    by_cases h9 : e = 'u'
    · rw [if_pos h9] at h
      subst h9
      cases cs' with
      | nil => exact Option.noConfusion h
      | cons x1 t1 =>
        cases t1 with
        | nil => exact Option.noConfusion h
        | cons x2 t2 =>
          cases t2 with
          | nil => exact Option.noConfusion h
          | cons x3 t3 =>
            cases t3 with
            | nil => exact Option.noConfusion h
            | cons x4 t4 =>
              have h' : (if isHexC x1 && isHexC x2 && isHexC x3 && isHexC x4 then
                  some (Char.ofNat
                    (((hexVal x1 * 16 + hexVal x2) * 16 + hexVal x3) * 16 + hexVal x4), t4)
                else none) = some (dc, rest) := h
              by_cases hhex : (isHexC x1 && isHexC x2 && isHexC x3 && isHexC x4) = true
              · rw [if_pos hhex] at h'
                cases h'
                simp only [Bool.and_eq_true] at hhex
                refine ⟨['u', x1, x2, x3, x4], by simp, by simp, ?_⟩
                intro d
                simp only [scanChunk, scanStep_inStr_esc,
                  isHexC_inStr_step hhex.1.1.1, isHexC_inStr_step hhex.1.1.2,
                  isHexC_inStr_step hhex.1.2, isHexC_inStr_step hhex.2]
              · rw [if_neg hhex] at h'
                exact Option.noConfusion h'
    · rw [if_neg h9] at h
      exact Option.noConfusion h

theorem parseStringBody_scan :
    ∀ f cs s rest, parseStringBody f cs = some (s, rest) →
      ∃ body, cs = body ++ rest ∧
        ∀ d : Int, scanChunk ⟨d, true, false⟩ body = some ⟨d, false, false⟩ := by
  intro f
  induction f with
  | zero => intro cs s rest h; cases h
  | succ f ih =>
    intro cs s rest h
    cases cs with
    | nil => cases h
    | cons c cs' =>
      simp only [parseStringBody] at h
      by_cases hq : c = '"'
      · subst hq
        rw [if_pos rfl] at h
        cases h
        refine ⟨['"'], rfl, ?_⟩
        intro d
        simp [scanChunk, scanStep_inStr_close]
      · rw [if_neg hq] at h
        by_cases hb : c = '\\'
        · subst hb
          rw [if_pos rfl] at h
          cases hde : decodeEscape cs' with
          | none =>
            rw [hde] at h
            exact Option.noConfusion h
          | some p =>
            obtain ⟨dc, rest1⟩ := p
            rw [hde] at h
            have h' : (match parseStringBody f rest1 with
              | none => none
              | some (s, r) => some (dc :: s, r)) = some (s, rest) := h
            cases hps : parseStringBody f rest1 with
            | none =>
              rw [hps] at h'
              exact Option.noConfusion h'
            | some q =>
              obtain ⟨s', r⟩ := q
              rw [hps] at h'
              cases h'
              obtain ⟨echars, hsplit, _, hchunk⟩ := decodeEscape_split hde
              obtain ⟨body1, hsplit1, hchunk1⟩ := ih rest1 s' rest hps
              refine ⟨'\\' :: (echars ++ body1), ?_, ?_⟩
              · simp [hsplit, hsplit1]
              · intro d
                simp only [scanChunk, scanStep_inStr_backslash]
                exact scanChunk_append_some (hchunk d) (hchunk1 d)
        · rw [if_neg hb] at h
          by_cases hctl : c.toNat < 32
          · rw [if_pos hctl] at h
            exact Option.noConfusion h
          · rw [if_neg hctl] at h
            have h' : (match parseStringBody f cs' with
              | none => none
              | some (s, r) => some (c :: s, r)) = some (s, rest) := h
            cases hps : parseStringBody f cs' with
            | none =>
              rw [hps] at h'
              exact Option.noConfusion h'
            | some q =>
              obtain ⟨s', r⟩ := q
              rw [hps] at h'
              cases h'
              obtain ⟨body1, hsplit1, hchunk1⟩ := ih cs' s' rest hps
              refine ⟨c :: body1, by simp [hsplit1], ?_⟩
              intro d
              simp only [scanChunk, scanStep_inStr_plain hb hq]
              exact hchunk1 d

theorem isDigitC_neutral {c : Char} (h : isDigitC c = true) : scanNeutral c = true := by
  have h1 : c ≠ '"' := by intro he; subst he; exact absurd h (by decide)
  have h2 : c ≠ '\x7b' := by intro he; subst he; exact absurd h (by decide)
  have h3 : c ≠ '\x7d' := by intro he; subst he; exact absurd h (by decide)
  simp [scanNeutral, h1, h2, h3]

theorem takeWhile_digits_neutral (l : List Char) :
    ∀ c ∈ l.takeWhile isDigitC, scanNeutral c = true := by
  intro c hc
  exact isDigitC_neutral (List.mem_takeWhile_imp hc)

theorem numInt_split {cs ds rest : List Char} (h : numInt cs = some (ds, rest)) :
    cs = ds ++ rest ∧ ∀ c ∈ ds, scanNeutral c = true := by
  cases cs with
  | nil => cases h
  | cons c r =>
    simp only [numInt] at h
    split at h
    · next hd =>
      split at h
      · cases h
        exact ⟨rfl, by intro x hx; simp at hx; subst hx; exact isDigitC_neutral hd⟩
      · cases h
        constructor
        · simp [List.takeWhile_append_dropWhile]
        · intro x hx
          rcases List.mem_cons.mp hx with hx | hx
          · subst hx; exact isDigitC_neutral hd
          · exact takeWhile_digits_neutral r x hx
    · cases h

theorem numFrac_split (cs : List Char) :
    cs = (numFrac cs).1 ++ (numFrac cs).2 ∧
      ∀ c ∈ (numFrac cs).1, scanNeutral c = true := by
  cases cs with
  | nil => exact ⟨rfl, by simp [numFrac]⟩
  | cons c r =>
    by_cases hdot : c = '.'
    · subst hdot
      by_cases hz : (r.takeWhile isDigitC) = []
      · simp only [numFrac, if_pos rfl, if_pos hz]
        exact ⟨rfl, by simp⟩
      · simp only [numFrac, if_pos rfl, if_neg hz]
        constructor
        · simp [List.takeWhile_append_dropWhile]
        · intro x hx
          rcases List.mem_cons.mp hx with hx | hx
          · subst hx; rfl
          · exact takeWhile_digits_neutral r x hx
    · simp only [numFrac, if_neg hdot]
      exact ⟨rfl, by simp⟩

theorem numExp_split (cs : List Char) :
    cs = (numExp cs).1 ++ (numExp cs).2 ∧
      ∀ c ∈ (numExp cs).1, scanNeutral c = true := by
  cases cs with
  | nil => exact ⟨rfl, by simp [numExp]⟩
  | cons e r =>
    by_cases he : (e = 'e' || e = 'E') = true
    · have hen : scanNeutral e = true := by
        rcases Bool.or_eq_true _ _ |>.mp he with h | h <;>
          · rw [decide_eq_true_eq] at h; subst h; rfl
      cases r with
      | nil =>
        simp only [numExp, if_pos he]
        by_cases hz : (([] : List Char).takeWhile isDigitC) = []
        · rw [if_pos hz]
          exact ⟨rfl, by simp⟩
        · exact absurd rfl hz
      | cons s r' =>
        by_cases hsgn : (s = '+' || s = '-') = true
        · have hsn : scanNeutral s = true := by
            rcases Bool.or_eq_true _ _ |>.mp hsgn with h | h <;>
              · rw [decide_eq_true_eq] at h; subst h; rfl
          simp only [numExp, if_pos he, if_pos hsgn]
          by_cases hz : (r'.takeWhile isDigitC) = []
          · rw [if_pos hz]
            exact ⟨rfl, by simp⟩
          · rw [if_neg hz]
            constructor
            · simp [List.takeWhile_append_dropWhile]
            · intro x hx
              rcases List.mem_cons.mp hx with hx | hx
              · subst hx; exact hen
              · rcases List.mem_cons.mp hx with hx | hx
                · subst hx; exact hsn
                · exact takeWhile_digits_neutral r' x hx
        · simp only [numExp, if_pos he, if_neg hsgn]
          by_cases hz : ((s :: r').takeWhile isDigitC) = []
          · rw [if_pos hz]
            exact ⟨rfl, by simp⟩
          · rw [if_neg hz]
            constructor
            · simp [List.takeWhile_append_dropWhile]
            · intro x hx
              rcases List.mem_cons.mp hx with hx | hx
              · subst hx; exact hen
              · simp only [List.nil_append] at hx
                exact takeWhile_digits_neutral (s :: r') x hx
    · simp only [numExp, if_neg he]
      exact ⟨rfl, by simp⟩

theorem stripLit_split : ∀ l cs r, stripLit l cs = some r → cs = l ++ r := by
  intro l
  induction l with
  | nil =>
    intro cs r h
    cases h
    rfl
  | cons x ls ih =>
    intro cs r h
    cases cs with
    | nil => cases h
    | cons c cs' =>
      simp only [stripLit] at h
      split at h
      · next he =>
        subst he
        simpa using ih cs' r h
      · cases h

theorem parseNumber_split {cs rest : List Char} {v : Json}
    (h : parseNumber cs = some (v, rest)) :
    ∃ span, cs = span ++ rest ∧ ∀ c ∈ span, scanNeutral c = true := by
  have key : ∀ (neg cs1 : List Char), cs = neg ++ cs1 →
      (∀ c ∈ neg, scanNeutral c = true) →
      (match numInt cs1 with
        | none => none
        | some (ds, cs2) =>
          some (Json.num (String.mk
            (neg ++ ds ++ (numFrac cs2).1 ++ (numExp (numFrac cs2).2).1)),
            (numExp (numFrac cs2).2).2)) = some (v, rest) →
      ∃ span, cs = span ++ rest ∧ ∀ c ∈ span, scanNeutral c = true := by
    intro neg cs1 hcs hneg h
    cases hni : numInt cs1 with
    | none =>
      rw [hni] at h
      exact Option.noConfusion h
    | some p =>
      obtain ⟨ds, cs2⟩ := p
      rw [hni] at h
      have h' : some (Json.num (String.mk
          (neg ++ ds ++ (numFrac cs2).1 ++ (numExp (numFrac cs2).2).1)),
          (numExp (numFrac cs2).2).2) = some (v, rest) := h
      cases h'
      obtain ⟨hni1, hni2⟩ := numInt_split hni
      obtain ⟨hf1, hf2⟩ := numFrac_split cs2
      obtain ⟨he1, he2⟩ := numExp_split (numFrac cs2).2
      refine ⟨neg ++ ds ++ (numFrac cs2).1 ++ (numExp (numFrac cs2).2).1, ?_, ?_⟩
      · rw [hcs, hni1]
        conv_lhs => rw [hf1]
        conv_lhs => rw [he1]
        simp [List.append_assoc]
      · intro x hx
        simp only [List.append_assoc, List.mem_append] at hx
        rcases hx with hx | hx | hx | hx
        · exact hneg x hx
        · exact hni2 x hx
        · exact hf2 x hx
        · exact he2 x hx
  simp only [parseNumber] at h
  cases cs with
  | nil =>
    exact key [] [] rfl (by simp) h
  | cons c r =>
    by_cases hm : c = '-'
    · subst hm
      exact key ['-'] r rfl (by intro x hx; simp at hx; subst hx; rfl) h
    · have h' : (match numInt ((if c = '-' then (['-'], r)
            else (([] : List Char), c :: r)).2) with
          | none => none
          | some (ds, cs2) =>
            some (Json.num (String.mk
              ((if c = '-' then (['-'], r) else (([] : List Char), c :: r)).1 ++ ds ++
                (numFrac cs2).1 ++ (numExp (numFrac cs2).2).1)),
              (numExp (numFrac cs2).2).2)) = some (v, rest) := h
      rw [if_neg hm] at h'
      exact key [] (c :: r) rfl (by simp) h'

theorem parseAtom_split {cs rest : List Char} {v : Json}
    (h : parseAtom cs = some (v, rest)) :
    ∃ span, cs = span ++ rest ∧ ∀ c ∈ span, scanNeutral c = true := by
  simp only [parseAtom] at h
  cases h1 : stripLit ['t', 'r', 'u', 'e'] cs with
  | some r =>
    rw [h1] at h
    have h' : some ((Json.bool true : Json), r) = some (v, rest) := h
    cases h'
    exact ⟨_, stripLit_split _ _ _ h1, by decide⟩
  | none =>
  rw [h1] at h
  cases h2 : stripLit ['f', 'a', 'l', 's', 'e'] cs with
  | some r =>
    rw [h2] at h
    have h' : some ((Json.bool false : Json), r) = some (v, rest) := h
    cases h'
    exact ⟨_, stripLit_split _ _ _ h2, by decide⟩
  | none =>
  rw [h2] at h
  cases h3 : stripLit ['n', 'u', 'l', 'l'] cs with
  | some r =>
    rw [h3] at h
    have h' : some ((Json.null : Json), r) = some (v, rest) := h
    cases h'
    exact ⟨_, stripLit_split _ _ _ h3, by decide⟩
  | none =>
  rw [h3] at h
  cases h4 : stripLit ['N', 'a', 'N'] cs with
  | some r =>
    rw [h4] at h
    have h' : some ((Json.num "NaN" : Json), r) = some (v, rest) := h
    cases h'
    exact ⟨_, stripLit_split _ _ _ h4, by decide⟩
  | none =>
  rw [h4] at h
  cases h5 : stripLit ['I', 'n', 'f', 'i', 'n', 'i', 't', 'y'] cs with
  | some r =>
    rw [h5] at h
    have h' : some ((Json.num "Infinity" : Json), r) = some (v, rest) := h
    cases h'
    exact ⟨_, stripLit_split _ _ _ h5, by decide⟩
  | none =>
  rw [h5] at h
  cases h6 : stripLit ['-', 'I', 'n', 'f', 'i', 'n', 'i', 't', 'y'] cs with
  | some r =>
    rw [h6] at h
    have h' : some ((Json.num "-Infinity" : Json), r) = some (v, rest) := h
    cases h'
    exact ⟨_, stripLit_split _ _ _ h6, by decide⟩
  | none =>
  rw [h6] at h
  exact parseNumber_split h

theorem scanStep_open (d : Int) :
    scanStep ⟨d, false, false⟩ '\x7b' = .cont ⟨d + 1, false, false⟩ := by
  simp [scanStep]

theorem scanStep_openQuote (d : Int) :
    scanStep ⟨d, false, false⟩ '"' = .cont ⟨d, true, false⟩ := by
  simp [scanStep]

theorem scanStep_close_cont {d : Int} (h : ¬ d - 1 = 0) :
    scanStep ⟨d, false, false⟩ '\x7d' = .cont ⟨d - 1, false, false⟩ := by
  simp [scanStep, h]

theorem scanStep_close_hit :
    scanStep ⟨1, false, false⟩ '\x7d' = .hit := by
  simp [scanStep]

theorem chunkCons {st st' st'' : ScanSt} {c : Char} {l : List Char}
    (h1 : scanStep st c = .cont st') (h2 : scanChunk st' l = some st'') :
    scanChunk st (c :: l) = some st'' := by
  simp only [scanChunk, h1]
  exact h2

theorem endCons {st st' : ScanSt} {c : Char} {l : List Char} {n : Nat}
    (h1 : scanStep st c = .cont st') (h2 : scanEnd st' l = some n) :
    scanEnd st (c :: l) = some (n + 1) := by
  simp only [scanEnd, h1, h2, Option.map_some']

theorem endHit {st : ScanSt} {c : Char} {l : List Char}
    (h1 : scanStep st c = .hit) : scanEnd st (c :: l) = some 0 := by
  simp only [scanEnd, h1]

theorem wsChunk {ws : List Char} (h : ∀ c ∈ ws, jsonWs c = true) (d : Int) :
    scanChunk ⟨d, false, false⟩ ws = some ⟨d, false, false⟩ :=
  scanChunk_neutral (fun c hc => jsonWs_neutral (h c hc)) d false

theorem neutralSingle {c : Char} (h : scanNeutral c = true) (d : Int) :
    scanChunk ⟨d, false, false⟩ [c] = some ⟨d, false, false⟩ :=
  scanChunk_neutral (by intro x hx; simp at hx; subst hx; exact h) d false

theorem chunkKeep_append {a b : List Char} (ha : ChunkKeep a) (hb : ChunkKeep b) :
    ChunkKeep (a ++ b) := by
  intro d hd
  exact scanChunk_append_some (ha d hd) (hb d hd)

theorem chunkKeep_of_neutral {a : List Char} (h : ∀ c ∈ a, scanNeutral c = true) :
    ChunkKeep a := by
  intro d _
  exact scanChunk_neutral h d false

theorem chunkKeep_string {body : List Char}
    (hb : ∀ d : Int, scanChunk ⟨d, true, false⟩ body = some ⟨d, false, false⟩) :
    ChunkKeep ('"' :: body) := by
  intro d _
  exact chunkCons (scanStep_openQuote d) (hb d)

theorem scanStep_open0 :
    scanStep ⟨0, false, false⟩ '\x7b' = .cont ⟨1, false, false⟩ := by
  simp [scanStep]

theorem wsHead_nil {ws0 l : List Char} (hws : ∀ x ∈ ws0, jsonWs x = true)
    (h : (ws0 ++ l).head? = some '\x7b') : ws0 = [] := by
  cases ws0 with
  | nil => rfl
  | cons w ws' =>
    simp only [List.cons_append, List.head?] at h
    have hw := Option.some.inj h
    subst hw
    exact absurd rfl (jsonWs_ne_brace (hws _ (by simp)))

theorem headNotBrace {ws0 l : List Char} {c : Char} (hws : ∀ x ∈ ws0, jsonWs x = true)
    (hc : c ≠ '\x7b') (h : (ws0 ++ c :: l).head? = some '\x7b') : False := by
  cases ws0 with
  | nil =>
    simp only [List.nil_append, List.head?] at h
    exact hc (Option.some.inj h)
  | cons w ws' =>
    simp only [List.cons_append, List.head?] at h
    have hw := Option.some.inj h
    subst hw
    exact absurd rfl (jsonWs_ne_brace (hws _ (by simp)))

theorem neutralHead_notBrace {span : List Char} (hn : ∀ c ∈ span, scanNeutral c = true)
    (h : span.head? = some '\x7b') : False := by
  have hm := head?_eq_mem h
  have := hn _ hm
  simp [scanNeutral] at this

theorem parser_scan : ∀ f : Nat,
    (∀ cs v rest, parseValue f cs = some (v, rest) →
      ∃ span, cs = span ++ rest ∧ ChunkKeep span ∧
        (span.head? = some '\x7b' →
          ∀ tail, scanEnd ⟨0, false, false⟩ (span ++ tail) = some (span.length - 1))) ∧
    (∀ cs ps rest, parseMembers f cs = some (ps, rest) →
      ∃ span, cs = span ++ rest ∧ span ≠ [] ∧ ChunkClose span) ∧
    (∀ cs vs rest, parseElems f cs = some (vs, rest) →
      ∃ span, cs = span ++ rest ∧ ChunkKeep span) := by
  intro f
  induction f with
  | zero =>
    refine ⟨?_, ?_, ?_⟩ <;> (intro cs x rest h; exact Option.noConfusion h)
  | succ f ih =>
    obtain ⟨ihv, ihm, ihe⟩ := ih
    refine ⟨?_, ?_, ?_⟩
    · -- parseValue (f+1)
      intro cs v rest h
      obtain ⟨ws0, hws0, hws0w⟩ := skipWs_split cs
      simp only [parseValue] at h
      split at h
      · exact Option.noConfusion h
      · next c cs' hsw =>
        rw [hsw] at hws0
        split at h
        · -- object
          next hc =>
          subst hc
          obtain ⟨ws1, hws1, hws1w⟩ := skipWs_split cs'
          split at h
          · next c2 r hsw2 =>
            rw [hsw2] at hws1
            split at h
            · -- empty object
              next hc2 =>
              subst hc2
              have h' : some ((Json.obj [] : Json), r) = some (v, rest) := h
              cases h'
              refine ⟨ws0 ++ '\x7b' :: (ws1 ++ ['\x7d']), ?_, ?_, ?_⟩
              · rw [hws0, hws1]
                simp [List.append_assoc]
              · intro d hd
                refine scanChunk_append_some (wsChunk hws0w d) ?_
                refine chunkCons (scanStep_open d) ?_
                refine scanChunk_append_some (wsChunk hws1w (d + 1)) ?_
                have hne : ¬ (d + 1) - 1 = 0 := by omega
                have hstep := scanStep_close_cont hne
                have heq : (d : Int) + 1 - 1 = d := by ring
                rw [heq] at hstep
                exact chunkCons hstep rfl
              · intro hhead tail
                have hnil : ws0 = [] := wsHead_nil hws0w hhead
                subst hnil
                simp only [List.nil_append, List.cons_append, List.append_assoc]
                have e1 : scanEnd ⟨1, false, false⟩ ('\x7d' :: tail) = some 0 :=
                  endHit scanStep_close_hit
                have e2 := scanEnd_chunk_prefix ('\x7d' :: tail) (wsChunk hws1w 1) e1
                have e3 := endCons scanStep_open0 e2
                simp only [List.singleton_append] at e3 ⊢
                rw [e3]
                congr 1
                simp only [List.length_cons, List.length_append, List.length_nil]
                omega
            · -- non-empty object: members
              next hc2 =>
              rw [Option.map_eq_some'] at h
              obtain ⟨⟨ps, rest'⟩, hpm, heq⟩ := h
              cases heq
              obtain ⟨mspan, hmsp, hmne, hclose⟩ := ihm _ _ _ hpm
              refine ⟨ws0 ++ '\x7b' :: (ws1 ++ mspan), ?_, ?_, ?_⟩
              · rw [hws0, hws1, hmsp]
                simp [List.append_assoc]
              · intro d hd
                refine scanChunk_append_some (wsChunk hws0w d) ?_
                refine chunkCons (scanStep_open d) ?_
                refine scanChunk_append_some (wsChunk hws1w (d + 1)) ?_
                have hcl := hclose.1 (d + 1) (by omega)
                have heq2 : (d : Int) + 1 - 1 = d := by ring
                rw [heq2] at hcl
                exact hcl
              · intro hhead tail
                have hnil : ws0 = [] := wsHead_nil hws0w hhead
                subst hnil
                simp only [List.nil_append, List.cons_append, List.append_assoc]
                have e1 := hclose.2 tail
                have e2 := scanEnd_chunk_prefix (mspan ++ tail) (wsChunk hws1w 1) e1
                have e3 := endCons scanStep_open0 e2
                rw [e3]
                congr 1
                have hlen : 1 ≤ mspan.length := List.length_pos.mpr hmne
                simp only [List.length_cons, List.length_append, List.length_nil]
                omega
          · exact Option.noConfusion h
        · -- not an object
          split at h
          · -- array
            next hc hcb =>
            subst hcb
            obtain ⟨ws1, hws1, hws1w⟩ := skipWs_split cs'
            split at h
            · next c2 r hsw2 =>
              rw [hsw2] at hws1
              split at h
              · -- empty array
                next hc2 =>
                subst hc2
                have h' : some ((Json.arr [] : Json), r) = some (v, rest) := h
                cases h'
                refine ⟨ws0 ++ '[' :: (ws1 ++ [']']), ?_, ?_, ?_⟩
                · rw [hws0, hws1]
                  simp [List.append_assoc]
                · refine chunkKeep_of_neutral ?_
                  intro x hx
                  simp at hx
                  rcases hx with hx | hx | hx | hx
                  · exact jsonWs_neutral (hws0w x hx)
                  · subst hx; rfl
                  · exact jsonWs_neutral (hws1w x hx)
                  · subst hx; rfl
                · intro hhead
                  exact absurd hhead (fun hh => headNotBrace hws0w (by decide) hh)
              · -- elements
                next hc2 =>
                rw [Option.map_eq_some'] at h
                obtain ⟨⟨vs, rest'⟩, hpe, heq⟩ := h
                cases heq
                obtain ⟨espan, hesp, hkeep⟩ := ihe _ _ _ hpe
                refine ⟨ws0 ++ '[' :: (ws1 ++ espan), ?_, ?_, ?_⟩
                · rw [hws0, hws1, hesp]
                  simp [List.append_assoc]
                · intro d hd
                  refine scanChunk_append_some (wsChunk hws0w d) ?_
                  refine chunkCons (scanStep_neutral (by decide) d false) ?_
                  refine scanChunk_append_some (wsChunk hws1w d) ?_
                  exact hkeep d hd
                · intro hhead
                  exact absurd hhead (fun hh => headNotBrace hws0w (by decide) hh)
            · exact Option.noConfusion h
          · split at h
            · -- string
              next hc hcb hcq =>
              subst hcq
              rw [Option.map_eq_some'] at h
              obtain ⟨⟨sb, rest'⟩, hps, heq⟩ := h
              cases heq
              obtain ⟨body, hbs, hbchunk⟩ := parseStringBody_scan _ _ _ _ hps
              refine ⟨ws0 ++ '"' :: body, ?_, ?_, ?_⟩
              · rw [hws0, hbs]
                simp [List.append_assoc]
              · intro d hd
                refine scanChunk_append_some (wsChunk hws0w d) ?_
                exact chunkKeep_string hbchunk d hd
              · intro hhead
                exact absurd hhead (fun hh => headNotBrace hws0w (by decide) hh)
            · -- atom
              next hc hcb hcq =>
              obtain ⟨aspan, hasp, haneut⟩ := parseAtom_split h
              refine ⟨ws0 ++ aspan, ?_, ?_, ?_⟩
              · rw [hws0, hasp]
                simp [List.append_assoc]
              · refine chunkKeep_of_neutral ?_
                intro x hx
                rcases List.mem_append.mp hx with hx | hx
                · exact jsonWs_neutral (hws0w x hx)
                · exact haneut x hx
              · intro hhead
                refine absurd hhead (fun hh => ?_)
                refine neutralHead_notBrace ?_ hh
                intro x hx
                rcases List.mem_append.mp hx with hx | hx
                · exact jsonWs_neutral (hws0w x hx)
                · exact haneut x hx
    · -- parseMembers (f+1)
      intro cs ps rest h
      simp only [parseMembers] at h
      split at h
      · next c cs' =>
        split at h
        · next hc =>
          subst hc
          split at h
          · exact Option.noConfusion h
          · next key cs2 hpsb =>
            obtain ⟨body, hbs, hbchunk⟩ := parseStringBody_scan _ _ _ _ hpsb
            obtain ⟨ws2, hws2, hws2w⟩ := skipWs_split cs2
            split at h
            · next c3 cs3 hsw3 =>
              rw [hsw3] at hws2
              split at h
              · next hc3 =>
                subst hc3
                split at h
                · exact Option.noConfusion h
                · next v cs4 hpv =>
                  obtain ⟨vsp, hvsp, hvkeep, _⟩ := ihv _ _ _ hpv
                  obtain ⟨ws3, hws3, hws3w⟩ := skipWs_split cs4
                  split at h
                  · next c5 cs5 hsw5 =>
                    rw [hsw5] at hws3
                    split at h
                    · -- comma: more members
                      next hc5 =>
                      subst hc5
                      split at h
                      · exact Option.noConfusion h
                      · next ps' rest' hpm =>
                        have h' : some ((String.mk key, v) :: ps', rest') = some (ps, rest) := h
                        cases h'
                        obtain ⟨ws4, hws4, hws4w⟩ := skipWs_split cs5
                        obtain ⟨mspan, hmsp, hmne, hclose⟩ := ihm _ _ _ hpm
                        rw [hmsp] at hws4
                        refine ⟨'"' :: (body ++ (ws2 ++ ':' :: (vsp ++ (ws3 ++ ',' :: (ws4 ++ mspan))))),
                          ?_, by simp, ?_, ?_⟩
                        · rw [hbs, hws2, hvsp, hws3, hws4]
                          simp [List.append_assoc]
                        · intro d hd
                          refine chunkCons (scanStep_openQuote d) ?_
                          refine scanChunk_append_some (hbchunk d) ?_
                          refine scanChunk_append_some (wsChunk hws2w d) ?_
                          refine chunkCons (scanStep_neutral (by decide) d false) ?_
                          refine scanChunk_append_some (hvkeep d (by omega)) ?_
                          refine scanChunk_append_some (wsChunk hws3w d) ?_
                          refine chunkCons (scanStep_neutral (by decide) d false) ?_
                          refine scanChunk_append_some (wsChunk hws4w d) ?_
                          exact hclose.1 d hd
                        · intro tail
                          have e1 := hclose.2 tail
                          have e2 := scanEnd_chunk_prefix (mspan ++ tail) (wsChunk hws4w 1) e1
                          have e3 : scanEnd ⟨1, false, false⟩
                              (',' :: (ws4 ++ (mspan ++ tail))) =
                              some (ws4.length + (mspan.length - 1) + 1) :=
                            endCons (scanStep_neutral (by decide) 1 false) e2
                          have e4 := scanEnd_chunk_prefix (',' :: (ws4 ++ (mspan ++ tail)))
                            (wsChunk hws3w 1) e3
                          have e5 := scanEnd_chunk_prefix _ (hvkeep 1 (by omega)) e4
                          have e6 : scanEnd ⟨1, false, false⟩
                              (':' :: (vsp ++ (ws3 ++ (',' :: (ws4 ++ (mspan ++ tail)))))) =
                              some (vsp.length + (ws3.length + (ws4.length + (mspan.length - 1) + 1)) + 1) :=
                            endCons (scanStep_neutral (by decide) 1 false) e5
                          have e7 := scanEnd_chunk_prefix _ (wsChunk hws2w 1) e6
                          have e8 := scanEnd_chunk_prefix _ (hbchunk 1) e7
                          have e9 := endCons (scanStep_openQuote 1) e8
                          have hlen : 1 ≤ mspan.length := List.length_pos.mpr hmne
                          simp only [List.cons_append, List.append_assoc,
                            List.singleton_append, List.nil_append] at e9 ⊢
                          rw [e9]
                          congr 1
                          simp only [List.length_cons, List.length_append, List.length_nil, List.length_singleton]
                          omega
                    · split at h
                      · -- closing brace: last member
                        next hc5 =>
                        subst hc5
                        have h' : some ([(String.mk key, v)], cs5) = some (ps, rest) := h
                        cases h'
                        refine ⟨'"' :: (body ++ (ws2 ++ ':' :: (vsp ++ (ws3 ++ ['\x7d'])))),
                          ?_, by simp, ?_, ?_⟩
                        · rw [hbs, hws2, hvsp, hws3]
                          simp [List.append_assoc]
                        · intro d hd
                          refine chunkCons (scanStep_openQuote d) ?_
                          refine scanChunk_append_some (hbchunk d) ?_
                          refine scanChunk_append_some (wsChunk hws2w d) ?_
                          refine chunkCons (scanStep_neutral (by decide) d false) ?_
                          refine scanChunk_append_some (hvkeep d (by omega)) ?_
                          refine scanChunk_append_some (wsChunk hws3w d) ?_
                          exact chunkCons (scanStep_close_cont (by omega)) rfl
                        · intro tail
                          have e1 : scanEnd ⟨1, false, false⟩ ('\x7d' :: tail) = some 0 :=
                            endHit scanStep_close_hit
                          have e2 := scanEnd_chunk_prefix ('\x7d' :: tail) (wsChunk hws3w 1) e1
                          have e3 := scanEnd_chunk_prefix _ (hvkeep 1 (by omega)) e2
                          have e4 : scanEnd ⟨1, false, false⟩
                              (':' :: (vsp ++ (ws3 ++ ('\x7d' :: tail)))) =
                              some (vsp.length + (ws3.length + 0) + 1) :=
                            endCons (scanStep_neutral (by decide) 1 false) e3
                          have e5 := scanEnd_chunk_prefix _ (wsChunk hws2w 1) e4
                          have e6 := scanEnd_chunk_prefix _ (hbchunk 1) e5
                          have e7 := endCons (scanStep_openQuote 1) e6
                          simp only [List.cons_append, List.append_assoc,
                            List.singleton_append, List.nil_append] at e7 ⊢
                          rw [e7]
                          congr 1
                          simp only [List.length_cons, List.length_append, List.length_nil, List.length_singleton]
                          omega
                      · exact Option.noConfusion h
                  · exact Option.noConfusion h
              · exact Option.noConfusion h
            · exact Option.noConfusion h
        · exact Option.noConfusion h
      · exact Option.noConfusion h
    · -- parseElems (f+1)
      intro cs vs rest h
      simp only [parseElems] at h
      split at h
      · exact Option.noConfusion h
      · next v cs1 hpv =>
        obtain ⟨vsp, hvsp, hvkeep, _⟩ := ihv _ _ _ hpv
        obtain ⟨ws, hws, hwsw⟩ := skipWs_split cs1
        split at h
        · next c2 cs2 hsw2 =>
          rw [hsw2] at hws
          split at h
          · -- comma: more elements
            next hc2 =>
            subst hc2
            rw [Option.map_eq_some'] at h
            obtain ⟨⟨vs', rest'⟩, hpe, heq⟩ := h
            cases heq
            obtain ⟨espan, hesp, hekeep⟩ := ihe _ _ _ hpe
            refine ⟨vsp ++ ws ++ ',' :: espan, ?_, ?_⟩
            · rw [hvsp, hws, hesp]
              simp [List.append_assoc]
            · intro d hd
              simp only [List.append_assoc]
              refine scanChunk_append_some (hvkeep d hd) ?_
              refine scanChunk_append_some (wsChunk hwsw d) ?_
              refine chunkCons (scanStep_neutral (by decide) d false) ?_
              exact hekeep d hd
          · split at h
            · -- closing bracket
              next hc2 =>
              subst hc2
              have h' : some ([v], cs2) = some (vs, rest) := h
              cases h'
              refine ⟨vsp ++ ws ++ [']'], ?_, ?_⟩
              · rw [hvsp, hws]
                simp [List.append_assoc]
              · intro d hd
                simp only [List.append_assoc]
                refine scanChunk_append_some (hvkeep d hd) ?_
                refine scanChunk_append_some (wsChunk hwsw d) ?_
                exact chunkCons (scanStep_neutral (by decide) d false) rfl
            · exact Option.noConfusion h
        · exact Option.noConfusion h

theorem mem_of_getLast?_eq {l : List Char} {a : Char} (h : l.getLast? = some a) : a ∈ l := by
  have hm : a ∈ l.getLast? := by rw [h]; rfl
  obtain ⟨hne, he⟩ := List.mem_getLast?_eq_getLast hm
  rw [he]
  exact List.getLast_mem hne

theorem get?_eq_head?_drop (l : List Char) (n : Nat) : l.get? n = (l.drop n).head? := by
  induction l generalizing n with
  | nil => cases n <;> rfl
  | cons c t ih =>
    cases n with
    | zero => rfl
    | succ n => simp [ih n]

theorem drop_eq_cons_of_get? {l : List Char} {n : Nat} {c : Char} (h : l.get? n = some c) :
    l.drop n = c :: l.drop (n + 1) := by
  have h1 : (l.drop n).head? = some c := by rw [← get?_eq_head?_drop]; exact h
  cases hd : l.drop n with
  | nil => rw [hd] at h1; cases h1
  | cons a t =>
    rw [hd] at h1
    have ha := Option.some.inj h1
    subst ha
    have ht := List.tail_drop l n
    rw [hd] at ht
    have ht2 : t = List.drop (n + 1) l := ht
    rw [ht2]

theorem candidate_head {text : List Char} {q : Nat} (h : text.get? q = some '\x7b')
    (off : Nat) : ((text.drop q).take (off + 1)).head? = some '\x7b' := by
  rw [drop_eq_cons_of_get? h]
  rfl

/-- The scanner started at the head of a json object span terminates
exactly at the span's closing brace, whatever follows. -/
theorem json_loads_obj_scan {span : List Char} {o : Json}
    (hhead : span.head? = some '\x7b') (hlast : span.getLast? = some '\x7d')
    (hjson : json_loads span = some o) :
    ∀ tail, scanEnd ⟨0, false, false⟩ (span ++ tail) = some (span.length - 1) := by
  intro tail
  simp only [json_loads] at hjson
  split at hjson
  · exact Option.noConfusion hjson
  · next v rest0 hpv =>
    split at hjson
    · next hws =>
      cases hjson
      obtain ⟨sp, hsp, hkeep, hend⟩ := (parser_scan _).1 _ _ _ hpv
      have hrest0 : rest0 = [] := by
        cases rest0 with
        | nil => rfl
        | cons x l =>
          rw [hsp, List.getLast?_append_cons] at hlast
          have hmem : '\x7d' ∈ x :: l := mem_of_getLast?_eq hlast
          have hw := skipWs_eq_nil hws _ hmem
          exact absurd hw (by decide)
      subst hrest0
      rw [List.append_nil] at hsp
      subst hsp
      exact hend hhead tail
    · exact Option.noConfusion hjson

theorem findBraceAux_finds {text : List Char} {m : Nat} (hm : text.get? m = some '\x7b') :
    ∀ fuel s, s ≤ m → m - s < fuel → ∃ i, findBraceAux text fuel s = some i ∧ i ≤ m := by
  have hmlt : m < text.length := by
    rcases List.get?_eq_some.mp hm with ⟨h, _⟩
    exact h
  intro fuel
  induction fuel with
  | zero =>
    intro s hs hlt
    omega
  | succ fuel ih =>
    intro s hs hlt
    rw [findBraceAux]
    have hslt : s < text.length := by omega
    rw [dif_pos hslt]
    by_cases hg : text.get ⟨s, hslt⟩ = '\x7b'
    · exact ⟨s, by rw [if_pos hg], hs⟩
    · rw [if_neg hg]
      have hsm : s ≠ m := by
        intro he
        subst he
        rw [List.get?_eq_get hslt] at hm
        exact hg (Option.some.inj hm)
      exact ih (s + 1) (by omega) (by omega)

theorem findBrace_finds {text : List Char} {m s : Nat} (hm : text.get? m = some '\x7b')
    (hs : s ≤ m) : ∃ i, findBrace text s = some i ∧ i ≤ m := by
  have hmlt : m < text.length := by
    rcases List.get?_eq_some.mp hm with ⟨h, _⟩
    exact h
  exact findBraceAux_finds hm (text.length + 1) s hs (by omega)

theorem extractLoop_reaches {text : List Char} {p : Nat} {o : Json}
    (hpb : text.get? p = some '\x7b')
    (hpgood : ∃ off, scanEnd ⟨0, false, false⟩ (text.drop p) = some off ∧
      json_loads ((text.drop p).take (off + 1)) = some o)
    (hfail : ∀ q l, q < p → l ≤ text.length →
      ((text.drop q).take l).head? = some '\x7b' →
      json_loads ((text.drop q).take l) = none) :
    ∀ fuel q, q ≤ p → p - q < fuel → text.get? q = some '\x7b' →
      extractLoop text fuel q = some o := by
  intro fuel
  induction fuel with
  | zero =>
    intro q hq hlt hqb
    omega
  | succ fuel ih =>
    intro q hq hlt hqb
    by_cases hqp : q = p
    · subst hqp
      obtain ⟨off, hoff, hjson⟩ := hpgood
      simp only [extractLoop, hoff, hjson]
    · have hqlt : q < p := lt_of_le_of_ne hq hqp
      have hstep : (match findBrace text (q + 1) with
          | some s2 => extractLoop text fuel s2
          | none => none) = some o := by
        have hq1 : q + 1 ≤ p := by omega
        obtain ⟨s2, hfb, hs2le⟩ := findBrace_finds hpb hq1
        obtain ⟨hs2ge, hs2lt, hs2b⟩ := findBrace_some hfb
        rw [hfb]
        have hfl : p - s2 < fuel := by omega
        exact ih s2 hs2le hfl hs2b
      cases hoffq : scanEnd ⟨0, false, false⟩ (text.drop q) with
      | some off =>
        have hcand := candidate_head hqb off
        have hoffbound := scanEnd_lt_length hoffq
        have hlen : off + 1 ≤ text.length := by
          have : (text.drop q).length ≤ text.length := by
            simp [List.length_drop]
          omega
        have hfq := hfail q (off + 1) hqlt hlen hcand
        simp only [extractLoop, hoffq, hfq]
        exact hstep
      | none =>
        simp only [extractLoop, hoffq]
        exact hstep

theorem extractLoop_all_fail {text : List Char}
    (hfail : ∀ q l, ((text.drop q).take l).head? = some '\x7b' →
      json_loads ((text.drop q).take l) = none) :
    ∀ fuel q, text.get? q = some '\x7b' → extractLoop text fuel q = none := by
  intro fuel
  induction fuel with
  | zero =>
    intro q hq
    rfl
  | succ fuel ih =>
    intro q hq
    have hstep : (match findBrace text (q + 1) with
        | some s2 => extractLoop text fuel s2
        | none => none) = none := by
      cases hfb : findBrace text (q + 1) with
      | none => rfl
      | some s2 =>
        obtain ⟨_, _, hs2b⟩ := findBrace_some hfb
        exact ih s2 hs2b
    cases hoffq : scanEnd ⟨0, false, false⟩ (text.drop q) with
    | some off =>
      have hcand := candidate_head hq off
      simp only [extractLoop, hoffq, hfail q (off + 1) hcand]
      exact hstep
    | none =>
      simp only [extractLoop, hoffq]
      exact hstep

/-- Claim C1: whenever whole-text parsing fails and a valid json object
span (starting with its `{` and ending with its `}`) is embedded at the
earliest position from which any parseable candidate starts, the
extraction recovers exactly that object, whatever arbitrary prose
surrounds it (including unbalanced braces inside quoted strings in the
prose, which the hypotheses place no restriction on); and when no
parseable candidate starts anywhere, the extraction returns the
no-object result. -/
theorem C1_extract_json_object :
    (∀ (pre span post : List Char) (o : Json),
      json_loads (pre ++ span ++ post) = none →
      span.head? = some '\x7b' →
      span.getLast? = some '\x7d' →
      json_loads span = some o →
      (∀ q, q < pre.length → ∀ l, l ≤ (pre ++ span ++ post).length →
        (((pre ++ span ++ post).drop q).take l).head? = some '\x7b' →
        json_loads (((pre ++ span ++ post).drop q).take l) = none) →
      extract_json_object (pre ++ span ++ post) = some o) ∧
    (∀ text : List Char,
      (∀ q l, ((text.drop q).take l).head? = some '\x7b' →
        json_loads ((text.drop q).take l) = none) →
      extract_json_object text = none) := by
  constructor
  · intro pre span post o hwhole hhead hlast hjson hmin
    have hdrop : (pre ++ span ++ post).drop pre.length = span ++ post := by
      rw [List.append_assoc]
      exact List.drop_left pre (span ++ post)
    have hspanne : span ≠ [] := by
      intro he
      rw [he] at hhead
      cases hhead
    have hlenpos : 1 ≤ span.length := List.length_pos.mpr hspanne
    have hpb : (pre ++ span ++ post).get? pre.length = some '\x7b' := by
      rw [get?_eq_head?_drop, hdrop]
      cases hsp : span with
      | nil => exact absurd hsp hspanne
      | cons c0 sptail =>
        rw [hsp] at hhead
        have hc0 := Option.some.inj hhead
        subst hc0
        rfl
    have hscan := json_loads_obj_scan hhead hlast hjson post
    have hoffp : scanEnd ⟨0, false, false⟩ ((pre ++ span ++ post).drop pre.length) =
        some (span.length - 1) := by
      rw [hdrop]
      exact hscan
    have hcand : ((pre ++ span ++ post).drop pre.length).take ((span.length - 1) + 1) =
        span := by
      rw [hdrop]
      have he : span.length - 1 + 1 = span.length := by omega
      rw [he]
      exact List.take_left span post
    have hgood : ∃ off, scanEnd ⟨0, false, false⟩
        ((pre ++ span ++ post).drop pre.length) = some off ∧
        json_loads (((pre ++ span ++ post).drop pre.length).take (off + 1)) = some o := by
      refine ⟨span.length - 1, hoffp, ?_⟩
      rw [hcand]
      exact hjson
    have hplt : pre.length < (pre ++ span ++ post).length := by
      simp only [List.length_append]
      omega
    obtain ⟨q0, hfb0, hq0le⟩ := findBrace_finds hpb (Nat.zero_le _)
    obtain ⟨_, _, hq0b⟩ := findBrace_some hfb0
    have hreach := extractLoop_reaches hpb hgood
      (fun q l hq hl => hmin q hq l hl)
      ((pre ++ span ++ post).length + 1) q0 hq0le (by omega) hq0b
    simp only [extract_json_object, hfb0]
    exact hreach
  · intro text hfail
    cases hfb : findBrace text 0 with
    | none => simp [extract_json_object, hfb]
    | some s =>
      obtain ⟨_, _, hsb⟩ := findBrace_some hfb
      simp only [extract_json_object, hfb]
      exact extractLoop_all_fail hfail _ s hsb

/-- Witness for C1: prose around a concrete embedded object, with a
stray brace-free prefix; the extraction returns the parsed object. -/
theorem C1_extract_json_object_witness :
    extract_json_object ("ab ".data ++ "\x7b\"k\":1\x7d".data ++ "!".data) =
      some (Json.obj [("k", Json.num "1")]) :=
  C1_extract_json_object.1 "ab ".data "\x7b\"k\":1\x7d".data "!".data
    (Json.obj [("k", Json.num "1")])
    (by decide) (by rfl) (by rfl) (by rfl) (by decide)
